import Mathlib

/-!
Huffman coder (`main.cpp`): embedding and verification.

A shallow embedding of the Huffman coder of `main.cpp` and theorems about it.

Conventions of the embedding.

* A `char` is represented by its 8-bit pattern, a number `0..255` (`Char8`).  Where the
  source relies on `char` being a signed 8-bit type (`ToBits`), the signed value is computed
  explicitly and every store into a `char` truncates to 8 bits.
* `size_t` values (weights, offsets, sizes) are natural numbers: they are bounded by the size
  of the buffers involved, so no `size_t` arithmetic of the program wraps, apart from
  `data.size() - 1` on an empty string, which is modelled as an error.
* Reads outside a container, `pop_back` on an empty vector, dereferencing `begin()` of an
  empty `multimap` and dereferencing a null `TNodeRef` are undefined behaviour in the source;
  in the embedding they are the explicit errors of `Err`.
* The iteration order of `unordered_map<char, size_t>` is unspecified: `InitList` receives
  the enumeration of the frequency table as an argument, and theorems quantify over every
  permutation of the table.
-/

namespace Huffman

/-- The 8-bit pattern of a `char`. -/
abbrev Char8 := Fin 256

/-- The source's `typedef vector<bool> TBits`. -/
abbrev TBits := List Bool

/-- The undefined behaviours the source can run into, as explicit errors. -/
inductive Err
  | outOfRange      -- `v[i]` with `i >= v.size()`
  | popBackEmpty    -- `pop_back()` on an empty vector
  | popMinEmpty     -- `PopMin`: `FreeList.begin()` dereferenced while `FreeList` is empty
  | noRoot          -- `Compress`: `FreeList.begin()->second` while `FreeList` is empty
  | nullDeref       -- `node->...` on a null `TNodeRef`
  | fuel            -- the loop bound of the embedding was exhausted (never happens)
  deriving DecidableEq, Repr

/-- The source's `struct TNode`.  Every node the program builds has either no child
(`Left` and `Right` null: `leaf`) or both children (`node`); `JoinMin` and `ConstructTree`
always set both.  The `Value` of a node with children is never read and is not kept. -/
inductive TNode
  | leaf (Value : Char8) (Freq : Nat)
  | node (Freq : Nat) (Left Right : TNode)
  deriving DecidableEq, Repr

/-- The field `node->Freq`. -/
def TNode.Freq : TNode → Nat
  | .leaf _ f => f
  | .node f _ _ => f

/-- The source's `typedef unordered_map<char, TBits> TCompressTable`, as an association
list with at most one entry per key. -/
abbrev TCompressTable := List (Char8 × TBits)

/-- The source's `multimap<size_t, TNodeRef> FreeList`: the entries in iteration order
(ascending key, equal keys in insertion order). -/
abbrev FreeList := List (Nat × TNode)

/-! ## Bits and bytes -/

/-- The value of a bit pattern read as a signed 8-bit `char`. -/
def signedVal (c : Char8) : Int :=
  if c.val < 128 then (c.val : Int) else (c.val : Int) - 256

/-- Conversion of an `int` to a signed 8-bit `char`: truncation to the low 8 bits. -/
def truncChar (x : Int) : Int := (x + 128) % 256 - 128

/-- The source's `ToBits`: for `i = 0..7`, `current = element; current <<= i; current >>= 8;
result.push_back(current)`.  `current` is promoted to `int` for each shift and the result is
stored back into the `char`; `<<` on an `int` multiplies by a power of two (also for a
negative value, as every two's complement target does), `>>` on a negative `int` is the
arithmetic shift; the pushed `bool` is `current != 0`. -/
def ToBits (element : Char8) : TBits :=
  (List.range 8).map fun i =>
    let current : Int := signedVal element
    let current : Int := truncChar (current * 2 ^ i)
    let current : Int := truncChar (current >>> 8)
    decide (current ≠ 0)

/-- One iteration of the loop of `FromBits`: `char e = bits[i]; e <<= (7 - (i - offset));
result |= e`, on bit patterns. -/
def FromBitsStep (bits : TBits) (offset : Nat) (result : Nat) (i : Nat) : Nat :=
  let e : Nat := if bits.getD i false then 1 else 0
  let e : Nat := (e <<< (7 - (i - offset))) % 256
  result ||| e

/-- The source's `FromBits`: the loop runs over `i = offset .. min(offset + 8, bits.size())`. -/
def FromBits (bits : TBits) (offset : Nat) : Char8 :=
  let result := (List.range' offset (min (offset + 8) bits.length - offset)).foldl
    (FromBitsStep bits offset) 0
  ⟨result % 256, Nat.mod_lt _ (by decide)⟩

/-- The source's `BitsToString`.  The loop `for (i = 0; i < bits.size(); i += 8)` runs
`ceil(size / 8)` times, with `i = 8 * j` in iteration `j`, and leaves `i = 8 * ceil(size / 8)`;
the last `push_back(i - bits.size())` stores that `size_t` into a `char`. -/
def BitsToString (bits : TBits) : List Char8 :=
  let n := (bits.length + 7) / 8
  let i := 8 * n
  (List.range n).map (fun j => FromBits bits (8 * j))
    ++ [⟨(i - bits.length) % 256, Nat.mod_lt _ (by decide)⟩]

/-- The loop `for (i = 0; i < nullsCount; ++i) bits.pop_back()` of `StringToBits`. -/
def popBackN : Nat → TBits → Except Err TBits
  | 0, bits => .ok bits
  | n + 1, bits => if bits = [] then .error .popBackEmpty else popBackN n bits.dropLast

/-- The source's `StringToBits`.  On the empty string `data.size() - 1` wraps around and the
loop reads outside `data`. -/
def StringToBits (data : List Char8) : Except Err TBits :=
  match data.getLast? with
  | none => .error .outOfRange
  | some last =>
    let bits : TBits := (data.dropLast.map ToBits).flatten
    let nullsCount : Nat := last.val
    popBackN nullsCount bits

/-! ## The node list -/

/-- The source's `multimap::insert`: the new entry goes after every entry whose key is not
greater (the upper bound of the range of equal keys). -/
def mmInsert (k : Nat) (n : TNode) : FreeList → FreeList
  | [] => [(k, n)]
  | e :: rest => if k < e.1 then (k, n) :: e :: rest else e :: mmInsert k n rest

/-- The source's `Add`. -/
def Add (node : TNode) (fl : FreeList) : FreeList :=
  mmInsert node.Freq node fl

/-- The source's `PopMin`: the element at `FreeList.begin()`, erased from the list. -/
def PopMin : FreeList → Except Err (TNode × FreeList)
  | [] => .error .popMinEmpty
  | e :: rest => .ok (e.2, rest)

/-- The `++freqTable[c]` of `InitList` on the frequency table as an association list. -/
def freqIncr (c : Char8) : List (Char8 × Nat) → List (Char8 × Nat)
  | [] => [(c, 1)]
  | e :: rest => if e.1 = c then (e.1, e.2 + 1) :: rest else e :: freqIncr c rest

/-- The first loop of `InitList`: the contents of `freqTable` (in first-occurrence order,
which is one of its possible enumerations). -/
def freqTable (data : List Char8) : List (Char8 × Nat) :=
  data.foldl (fun t c => freqIncr c t) []

/-- The second loop of `InitList`, over the enumeration `entries` of `freqTable`, starting
from the empty `FreeList` of a fresh `THuffmanCompressor`. -/
def InitList (entries : List (Char8 × Nat)) : FreeList :=
  entries.foldl (fun fl it => Add (.leaf it.1 it.2) fl) []

/-- The source's `JoinMin`. -/
def JoinMin (fl : FreeList) : Except Err FreeList :=
  match PopMin fl with
  | .error e => .error e
  | .ok (a, fl) =>
    match PopMin fl with
    | .error e => .error e
    | .ok (b, fl) =>
      let c : TNode :=
        if a.Freq < b.Freq then .node (a.Freq + b.Freq) a b
        else .node (a.Freq + b.Freq) b a
      .ok (Add c fl)

/-- The loop `while (FreeList.size() > 1) JoinMin()`, bounded by `fuel` iterations.  Every
iteration shortens the list by one, so `FreeList.size()` iterations are never exhausted
(`mergeLoop_fuel_enough`). -/
def mergeLoop : Nat → FreeList → Except Err FreeList
  | 0, fl => if fl.length > 1 then .error .fuel else .ok fl
  | fuel + 1, fl =>
    if fl.length > 1 then
      match JoinMin fl with
      | .ok fl' => mergeLoop fuel fl'
      | .error e => .error e
    else .ok fl

/-- The `FreeList.begin()->second` of `Compress`. -/
def rootOf : FreeList → Except Err TNode
  | [] => .error .noRoot
  | e :: _ => .ok e.2

/-! ## Code table and tree serialisation -/

/-- The source's `table[key] = bits`: overwrite the entry of `key` or add one. -/
def tableSet (key : Char8) (bits : TBits) : TCompressTable → TCompressTable
  | [] => [(key, bits)]
  | e :: rest => if e.1 = key then (key, bits) :: rest else e :: tableSet key bits rest

/-- The entry of `key`, when there is one. -/
def tableFind (key : Char8) : TCompressTable → Option TBits
  | [] => none
  | e :: rest => if e.1 = key then some e.2 else tableFind key rest

/-- The source's `table[key]` read: the entry of `key`, or a fresh empty `TBits`. -/
def tableGet (table : TCompressTable) (key : Char8) : TBits :=
  (tableFind key table).getD []

/-- The source's `currentBits[currentBits.size() - 1] = !currentBits[currentBits.size() - 1]`. -/
def flipLast (currentBits : TBits) : TBits :=
  currentBits.set (currentBits.length - 1) (!(currentBits.getD (currentBits.length - 1) false))

/-- The source's `GetTable`; the table is passed through. -/
def GetTable : TNode → TCompressTable → TBits → TCompressTable
  | .node _ l r, table, currentBits =>
    let currentBits := currentBits ++ [true]
    let table := GetTable l table currentBits
    let currentBits := flipLast currentBits
    GetTable r table currentBits
  | .leaf v _, table, currentBits => tableSet v currentBits table

/-- The source's `SerializeTree`. -/
def SerializeTree : TNode → TBits
  | .node _ l r => false :: (SerializeTree l ++ SerializeTree r)
  | .leaf v _ => true :: ToBits v

/-- The source's `ConstructTree`, returning the node it fills in and the new `offset`.  The
nodes come from `make_shared<TNode>()`, so `Freq` is 0 everywhere.  Every call reads
`bits[offset]` (undefined behaviour past the end) and advances `offset`, so at most
`bits.size()` calls are nested; `fuel` bounds the nesting, and `bits.size() + 1` is never
exhausted (`ConstructTree_fuel_enough`). -/
def ConstructTree : Nat → TBits → Nat → Except Err (TNode × Nat)
  | 0, _, _ => .error .fuel
  | fuel + 1, bits, offset =>
    match bits[offset]? with
    | none => .error .outOfRange
    | some type =>
      let offset := offset + 1
      if type = false then
        match ConstructTree fuel bits offset with
        | .error e => .error e
        | .ok (left, offset) =>
          match ConstructTree fuel bits offset with
          | .error e => .error e
          | .ok (right, offset) => .ok (.node 0 left right, offset)
      else
        .ok (.leaf (FromBits bits offset) 0, offset + 8)

/-- The decoding loop of `Decompress` over the bits from `offset` on: `node` is the current
node, `result` the bytes emitted so far.  When `node` has no children, `node->Left` (or
`node->Right`) is null and `node->Right` of it is a null dereference. -/
def walk (root : TNode) : TNode → TBits → List Char8 → Except Err (List Char8)
  | _, [], result => .ok result
  | .leaf _ _, _ :: _, _ => .error .nullDeref
  | .node _ l r, b :: rest, result =>
    match (if b then l else r) with
    | .leaf v _ => walk root root rest (result ++ [v])
    | .node f l' r' => walk root (.node f l' r') rest result

/-! ## The two entry points -/

/-- The tree `Compress` builds: `InitList`, the merge loop, and the root. -/
def buildTree (entries : List (Char8 × Nat)) : Except Err TNode :=
  match mergeLoop (InitList entries).length (InitList entries) with
  | .error e => .error e
  | .ok fl => rootOf fl

/-- The bit sequence `Compress` packs, for a given root. -/
def compressedBits (root : TNode) (data : List Char8) : TBits :=
  let table := GetTable root [] []
  SerializeTree root ++ (data.map (tableGet table)).flatten

/-- The source's `Compress`; `entries` is the enumeration of `freqTable` met by the second
loop of `InitList`. -/
def Compress (entries : List (Char8 × Nat)) (data : List Char8) : Except Err (List Char8) :=
  match buildTree entries with
  | .error e => .error e
  | .ok root => .ok (BitsToString (compressedBits root data))

/-- The source's `Decompress`. -/
def Decompress (data : List Char8) : Except Err (List Char8) :=
  match StringToBits data with
  | .error e => .error e
  | .ok compressed =>
    match ConstructTree (compressed.length + 1) compressed 0 with
    | .error e => .error e
    | .ok (root, offset) => walk root root (compressed.drop offset) []

/-! ## Notions used in the statements -/

/-- A chunk of at most 8 bits, padded with zero bits to 8 bits. -/
def pad8 (chunk : TBits) : TBits := chunk ++ List.replicate (8 - chunk.length) false

/-- The tree with every `Freq` set to 0, as `ConstructTree` leaves it. -/
def zeroFreq : TNode → TNode
  | .leaf v _ => .leaf v 0
  | .node _ l r => .node 0 (zeroFreq l) (zeroFreq r)

/-- Same shape and the same leaf values at the same positions (weights are not compared). -/
def sameShape : TNode → TNode → Prop
  | .leaf v _, .leaf w _ => v = w
  | .node _ l r, .node _ l' r' => sameShape l l' ∧ sameShape r r'
  | _, _ => False

/-- `sameShape` can be computed. -/
instance decSameShape : (T T' : TNode) → Decidable (sameShape T T')
  | .leaf v _, .leaf w _ => inferInstanceAs (Decidable (v = w))
  | .node _ l r, .node _ l' r' =>
    have := decSameShape l l'
    have := decSameShape r r'
    inferInstanceAs (Decidable (sameShape l l' ∧ sameShape r r'))
  | .leaf _ _, .node _ _ _ => isFalse (fun h => h)
  | .node _ _ _, .leaf _ _ => isFalse (fun h => h)

/-- The leaf values of a tree, left to right. -/
def symbols : TNode → List Char8
  | .leaf v _ => [v]
  | .node _ l r => symbols l ++ symbols r

/-- The leaves of a tree with their paths from the root, Left being bit 1 and Right bit 0. -/
def codesOf : TNode → List (Char8 × TBits)
  | .leaf v _ => [(v, [])]
  | .node _ l r =>
    (codesOf l).map (fun e => (e.1, true :: e.2)) ++ (codesOf r).map (fun e => (e.1, false :: e.2))

/-- The leaf values of all the trees of the node list. -/
def allSymbols (fl : FreeList) : List Char8 := fl.flatMap (fun e => symbols e.2)

/-- Every node with children weighs the sum of its children, and its Left child is not
heavier than its Right child. -/
def weightOk : TNode → Prop
  | .leaf _ _ => True
  | .node f l r => f = l.Freq + r.Freq ∧ l.Freq ≤ r.Freq ∧ weightOk l ∧ weightOk r

/-- `weightOk` can be computed. -/
instance decWeightOk : (T : TNode) → Decidable (weightOk T)
  | .leaf _ _ => isTrue trivial
  | .node f l r =>
    have := decWeightOk l
    have := decWeightOk r
    inferInstanceAs (Decidable (f = l.Freq + r.Freq ∧ l.Freq ≤ r.Freq ∧ weightOk l ∧ weightOk r))

/-- The leaves of a tree with their weights, left to right. -/
def leavesOf : TNode → List (Char8 × Nat)
  | .leaf v f => [(v, f)]
  | .node _ l r => leavesOf l ++ leavesOf r

/-- The leaves, with their weights, of all the trees of the node list. -/
def allLeaves (fl : FreeList) : List (Char8 × Nat) := fl.flatMap (fun e => leavesOf e.2)

/-- The count the frequency table holds for a key (0 without an entry). -/
def getCount : List (Char8 × Nat) → Char8 → Nat
  | [], _ => 0
  | e :: rest, d => if e.1 = d then e.2 else getCount rest d

/-- The node list after `n` merge steps (`n` calls of `JoinMin`). -/
def iterJoinMin : Nat → FreeList → Except Err FreeList
  | 0, fl => .ok fl
  | n + 1, fl =>
    match JoinMin fl with
    | .ok fl' => iterJoinMin n fl'
    | .error e => .error e

/-- The sum of the keys (weights) of the node list. -/
def keySum (fl : FreeList) : Nat := (fl.map Prod.fst).sum

/-- The state of the node list while a byte `m` of weight `cm` outweighs all the others
together (`total` is the sum of all weights): every key is the weight of its node, the keys
add up to `total`, and either the leaf of `m` is the last entry or the list is the root, whose
Right child is the leaf of `m`. -/
def dominantInv (m : Char8) (cm total : Nat) (fl : FreeList) : Prop :=
  (∀ e ∈ fl, e.1 = e.2.Freq) ∧ keySum fl = total ∧
    ((∃ init, fl = init ++ [(cm, TNode.leaf m cm)]) ∨
      (∃ T, fl = [(total, TNode.node total T (.leaf m cm))]))

/-- The number of nodes with children in a tree. -/
def internalCount : TNode → Nat
  | .leaf _ _ => 0
  | .node _ l r => 1 + internalCount l + internalCount r

/-! ## Lemmas on bits and bytes -/

set_option maxRecDepth 100000 in
theorem FromBits_ToBits_zero : ∀ c : Char8, FromBits (ToBits c) 0 = c := by decide

theorem ToBits_length (c : Char8) : (ToBits c).length = 8 := by
  simp [ToBits]

set_option maxRecDepth 100000 in
theorem ToBits_FromBits_chunk8 : ∀ b0 b1 b2 b3 b4 b5 b6 b7 : Bool,
    ToBits (FromBits [b0, b1, b2, b3, b4, b5, b6, b7] 0) = [b0, b1, b2, b3, b4, b5, b6, b7] := by
  decide

set_option maxRecDepth 100000 in
theorem ToBits_FromBits_chunk7 : ∀ b0 b1 b2 b3 b4 b5 b6 : Bool,
    ToBits (FromBits [b0, b1, b2, b3, b4, b5, b6] 0) = [b0, b1, b2, b3, b4, b5, b6, false] := by
  decide

set_option maxRecDepth 100000 in
theorem ToBits_FromBits_chunk6 : ∀ b0 b1 b2 b3 b4 b5 : Bool,
    ToBits (FromBits [b0, b1, b2, b3, b4, b5] 0) = [b0, b1, b2, b3, b4, b5, false, false] := by
  decide

set_option maxRecDepth 100000 in
theorem ToBits_FromBits_chunk5 : ∀ b0 b1 b2 b3 b4 : Bool,
    ToBits (FromBits [b0, b1, b2, b3, b4] 0) = [b0, b1, b2, b3, b4, false, false, false] := by
  decide

set_option maxRecDepth 100000 in
theorem ToBits_FromBits_chunk4 : ∀ b0 b1 b2 b3 : Bool,
    ToBits (FromBits [b0, b1, b2, b3] 0) = [b0, b1, b2, b3, false, false, false, false] := by
  decide

set_option maxRecDepth 100000 in
theorem ToBits_FromBits_chunk3 : ∀ b0 b1 b2 : Bool,
    ToBits (FromBits [b0, b1, b2] 0) = [b0, b1, b2, false, false, false, false, false] := by
  decide

set_option maxRecDepth 100000 in
theorem ToBits_FromBits_chunk2 : ∀ b0 b1 : Bool,
    ToBits (FromBits [b0, b1] 0) = [b0, b1, false, false, false, false, false, false] := by
  decide

set_option maxRecDepth 100000 in
theorem ToBits_FromBits_chunk1 : ∀ b0 : Bool,
    ToBits (FromBits [b0] 0) = [b0, false, false, false, false, false, false, false] := by
  decide

set_option maxRecDepth 100000 in
theorem ToBits_FromBits_chunk0 :
    ToBits (FromBits [] 0) = [false, false, false, false, false, false, false, false] := by
  decide

theorem ToBits_FromBits_chunk (chunk : TBits) (h : chunk.length ≤ 8) :
    ToBits (FromBits chunk 0) = pad8 chunk := by
  rcases chunk with _ | ⟨b0, _ | ⟨b1, _ | ⟨b2, _ | ⟨b3, _ | ⟨b4, _ | ⟨b5, _ | ⟨b6, _ | ⟨b7, _ | ⟨b8, t⟩⟩⟩⟩⟩⟩⟩⟩⟩
  · exact ToBits_FromBits_chunk0
  · exact ToBits_FromBits_chunk1 b0
  · exact ToBits_FromBits_chunk2 b0 b1
  · exact ToBits_FromBits_chunk3 b0 b1 b2
  · exact ToBits_FromBits_chunk4 b0 b1 b2 b3
  · exact ToBits_FromBits_chunk5 b0 b1 b2 b3 b4
  · exact ToBits_FromBits_chunk6 b0 b1 b2 b3 b4 b5
  · exact ToBits_FromBits_chunk7 b0 b1 b2 b3 b4 b5 b6
  · exact ToBits_FromBits_chunk8 b0 b1 b2 b3 b4 b5 b6 b7
  · simp at h


theorem FromBitsStep_chunk (bits : TBits) (offset r k : Nat) (hk : k < 8) :
    FromBitsStep bits offset r (offset + k)
      = FromBitsStep ((bits.drop offset).take 8) 0 r k := by
  unfold FromBitsStep
  have h1 : bits.getD (offset + k) false = ((bits.drop offset).take 8).getD k false := by
    simp [List.getD_eq_getElem?_getD, List.getElem?_take, hk]
  rw [h1]
  simp

theorem FromBits_fold_chunk (bits : TBits) (offset : Nat) :
    ∀ (n : Nat) (r : Nat), n ≤ 8 →
      (List.range' offset n).foldl (FromBitsStep bits offset) r
        = (List.range' 0 n).foldl (FromBitsStep ((bits.drop offset).take 8) 0) r := by
  intro n
  induction n with
  | zero => intro r _; rfl
  | succ n ih =>
    intro r hn
    rw [List.range'_1_concat, List.range'_1_concat, List.foldl_append, List.foldl_append,
      ih r (by omega)]
    simp only [List.foldl_cons, List.foldl_nil, Nat.zero_add]
    exact FromBitsStep_chunk bits offset _ n (by omega)

/-- `FromBits` only looks at the (at most) 8 bits from `offset` on. -/
theorem FromBits_eq_chunk (bits : TBits) (offset : Nat) :
    FromBits bits offset = FromBits ((bits.drop offset).take 8) 0 := by
  have hlen : min (0 + 8) ((bits.drop offset).take 8).length - 0
      = min (offset + 8) bits.length - offset := by
    simp only [List.length_take, List.length_drop]; omega
  apply Fin.ext
  simp only [FromBits]
  rw [hlen, FromBits_fold_chunk bits offset _ 0 (by omega)]

theorem popBackN_append_replicate (bits : TBits) :
    ∀ k : Nat, popBackN k (bits ++ List.replicate k false) = .ok bits := by
  intro k
  induction k with
  | zero => simp [popBackN]
  | succ k ih =>
    have h1 : bits ++ List.replicate (k + 1) false ≠ [] := by simp
    have h2 : (bits ++ List.replicate (k + 1) false).dropLast = bits ++ List.replicate k false := by
      rw [List.replicate_succ', ← List.append_assoc, List.dropLast_concat]
    simp only [popBackN, h1, if_false, h2, ih]

/-- The bytes of `BitsToString` before the control byte, unpacked again. -/
theorem unpack_chunks (bits : TBits) :
    ∀ m : Nat, 8 * m ≤ bits.length + 7 →
      (((List.range m).map (fun j => FromBits bits (8 * j))).map ToBits).flatten
        = bits.take (8 * m) ++ List.replicate (8 * m - bits.length) false := by
  intro m
  induction m with
  | zero => intro _; simp
  | succ m ih =>
    intro hm
    have hlt : 8 * m < bits.length := by omega
    rw [List.range_succ, List.map_append, List.map_append, List.flatten_append, ih (by omega)]
    have h0 : 8 * m - bits.length = 0 := by omega
    simp only [h0, List.replicate_zero, List.append_nil, List.map_cons, List.map_nil,
      List.flatten_cons, List.flatten_nil]
    rw [FromBits_eq_chunk, ToBits_FromBits_chunk _ (by simp), pad8]
    have h8 : 8 * (m + 1) = 8 * m + 8 := by ring
    rw [h8, List.take_add, List.append_assoc]
    congr 2
    simp only [List.length_take, List.length_drop]
    congr 1
    omega

theorem StringToBits_BitsToString (bits : TBits) :
    StringToBits (BitsToString bits) = .ok bits := by
  unfold StringToBits BitsToString
  simp only [List.getLast?_concat, List.dropLast_concat]
  rw [unpack_chunks bits _ (by omega)]
  have h1 : bits.length ≤ 8 * ((bits.length + 7) / 8) := by omega
  have h2 : (8 * ((bits.length + 7) / 8) - bits.length) % 256
      = 8 * ((bits.length + 7) / 8) - bits.length := by
    apply Nat.mod_eq_of_lt; omega
  simp only [h2, List.take_of_length_le h1]
  exact popBackN_append_replicate bits _


set_option maxRecDepth 100000 in
/-- `ToBits` lists the bits of the pattern, most significant first. -/
theorem ToBits_eq_testBit : ∀ c : Char8,
    ToBits c = (List.range 8).map (fun i => c.val.testBit (7 - i)) := by decide

theorem pad8_getD (chunk : TBits) (k : Nat) :
    (pad8 chunk).getD k false = chunk.getD k false := by
  unfold pad8
  simp only [List.getD_eq_getElem?_getD]
  by_cases hk : k < chunk.length
  · rw [List.getElem?_append_left hk]
  · rw [List.getElem?_append_right (by omega)]
    have : chunk[k]? = none := List.getElem?_eq_none (by omega)
    rw [this]
    by_cases h2 : k - chunk.length < 8 - chunk.length
    · simp [List.getElem?_replicate, h2]
    · simp [List.getElem?_replicate, h2]

/-- Bit `7 - k` of the byte `FromBits` reads at `offset` is bit `offset + k` of `bits`
(a zero bit when `bits` is too short). -/
theorem FromBits_testBit (bits : TBits) (offset k : Nat) (hk : k < 8) :
    (FromBits bits offset).val.testBit (7 - k) = bits.getD (offset + k) false := by
  have h1 := ToBits_FromBits_chunk ((bits.drop offset).take 8) (by simp)
  rw [← FromBits_eq_chunk, ToBits_eq_testBit] at h1
  have h2 := congrArg (fun l => l.getD k false) h1
  simp only [pad8_getD] at h2
  simp only [List.getD_eq_getElem?_getD, List.getElem?_map, List.getElem?_range hk,
    Option.map_some', Option.getD_some, List.getElem?_take, hk, if_true,
    List.getElem?_drop] at h2
  rw [h2, List.getD_eq_getElem?_getD]

theorem BitsToString_length (bits : TBits) :
    (BitsToString bits).length = (bits.length + 7) / 8 + 1 := by
  simp [BitsToString]

theorem BitsToString_getD (bits : TBits) (j : Nat) (hj : j < (bits.length + 7) / 8) :
    (BitsToString bits).getD j 0 = FromBits bits (8 * j) := by
  unfold BitsToString
  simp only [List.getD_eq_getElem?_getD]
  rw [List.getElem?_append_left (by simpa using hj)]
  simp [List.getElem?_map, List.getElem?_range hj]

theorem BitsToString_getLast (bits : TBits) :
    (BitsToString bits).getLast?.map Fin.val = some ((8 - bits.length % 8) % 8) := by
  unfold BitsToString
  simp only [List.getLast?_concat, Option.map_some']
  congr 1
  show (8 * ((bits.length + 7) / 8) - bits.length) % 256 = _
  omega


/-! ## Lemmas on tree serialisation -/

theorem sameShape_zeroFreq (T : TNode) : sameShape (zeroFreq T) T := by
  induction T with
  | leaf v f => simp [zeroFreq, sameShape]
  | node f l r ihl ihr => exact ⟨ihl, ihr⟩

theorem getElem?_at_length (pre t : TBits) (b : Bool) :
    (pre ++ b :: t)[pre.length]? = some b := by
  rw [List.getElem?_append_right (Nat.le_refl _)]
  simp

theorem FromBits_at_ToBits (pre s : TBits) (v : Char8) :
    FromBits (pre ++ ToBits v ++ s) pre.length = v := by
  rw [FromBits_eq_chunk]
  have h : ((pre ++ ToBits v ++ s).drop pre.length).take 8 = ToBits v := by
    rw [List.append_assoc, List.drop_left]
    rw [List.take_append_of_le_length (by rw [ToBits_length])]
    exact List.take_of_length_le (by rw [ToBits_length])
  rw [h, FromBits_ToBits_zero]

theorem ConstructTree_SerializeTree (T : TNode) :
    ∀ (pre s : TBits) (fuel : Nat), (SerializeTree T).length ≤ fuel →
      ConstructTree fuel (pre ++ SerializeTree T ++ s) pre.length
        = .ok (zeroFreq T, pre.length + (SerializeTree T).length) := by
  induction T with
  | leaf v f =>
    intro pre s fuel hf
    have h9 : (SerializeTree (.leaf v f)).length = 9 := by simp [SerializeTree, ToBits_length]
    obtain ⟨fuel, rfl⟩ : ∃ k, fuel = k + 1 := ⟨fuel - 1, by omega⟩
    have hget : (pre ++ SerializeTree (.leaf v f) ++ s)[pre.length]? = some true := by
      simp only [SerializeTree, List.append_assoc, List.cons_append]
      exact getElem?_at_length _ _ _
    have hfrom : FromBits (pre ++ SerializeTree (.leaf v f) ++ s) (pre.length + 1) = v := by
      have := FromBits_at_ToBits (pre ++ [true]) s v
      simpa [SerializeTree] using this
    rw [ConstructTree, hget]
    simp only [hfrom, h9, zeroFreq]
    rfl
  | node f l r ihl ihr =>
    intro pre s fuel hf
    have hlen : (SerializeTree (.node f l r)).length
        = 1 + (SerializeTree l).length + (SerializeTree r).length := by
      simp [SerializeTree]; omega
    obtain ⟨fuel, rfl⟩ : ∃ k, fuel = k + 1 := ⟨fuel - 1, by omega⟩
    have hget : (pre ++ SerializeTree (.node f l r) ++ s)[pre.length]? = some false := by
      simp only [SerializeTree, List.append_assoc, List.cons_append]
      exact getElem?_at_length _ _ _
    have hl := ihl (pre ++ [false]) (SerializeTree r ++ s) fuel (by omega)
    have hr := ihr (pre ++ [false] ++ SerializeTree l) s fuel (by omega)
    have e1 : pre ++ SerializeTree (.node f l r) ++ s
        = pre ++ [false] ++ SerializeTree l ++ (SerializeTree r ++ s) := by
      simp [SerializeTree]
    have e2 : pre ++ [false] ++ SerializeTree l ++ (SerializeTree r ++ s)
        = pre ++ [false] ++ SerializeTree l ++ SerializeTree r ++ s := by
      simp
    have e3 : (pre ++ [false]).length = pre.length + 1 := by simp
    have e4 : (pre ++ [false] ++ SerializeTree l).length
        = pre.length + 1 + (SerializeTree l).length := by simp; omega
    rw [ConstructTree, hget]
    rw [e3] at hl
    rw [e4] at hr
    simp only [if_true, e1, hl]
    rw [e2, hr]
    simp only [zeroFreq, hlen, Except.ok.injEq, Prod.mk.injEq, true_and]
    omega


/-- `ConstructTree` only moves the offset forward. -/
theorem ConstructTree_offset_lt :
    ∀ (fuel : Nat) (bits : TBits) (offset : Nat) (T : TNode) (offset' : Nat),
      ConstructTree fuel bits offset = .ok (T, offset') → offset < offset' := by
  intro fuel
  induction fuel with
  | zero => intro bits offset T offset' h; simp [ConstructTree] at h
  | succ fuel ih =>
    intro bits offset T offset' h
    unfold ConstructTree at h
    split at h
    · cases h
    · simp only at h
      split at h
      · split at h
        · cases h
        · rename_i left o1 h1
          split at h
          · cases h
          · rename_i right o2 h2
            have := ih bits _ _ _ h1
            have := ih bits _ _ _ h2
            simp only [Except.ok.injEq, Prod.mk.injEq] at h
            omega
      · simp only [Except.ok.injEq, Prod.mk.injEq] at h
        omega

/-- The bound `Decompress` gives `ConstructTree` is never exhausted: with more `fuel` than
bits left, an error of `ConstructTree` is a read past the end of `bits`. -/
theorem ConstructTree_fuel_enough :
    ∀ (fuel : Nat) (bits : TBits) (offset : Nat), bits.length < offset + fuel + 1 →
      ConstructTree (fuel + 1) bits offset ≠ .error .fuel := by
  intro fuel
  induction fuel with
  | zero =>
    intro bits offset hlen h
    have hnone : bits[offset]? = none := List.getElem?_eq_none (by omega)
    simp [ConstructTree, hnone] at h
  | succ fuel ih =>
    intro bits offset hlen h
    unfold ConstructTree at h
    split at h
    · cases h
    · simp only at h
      split at h
      · split at h
        · rename_i e h1
          injection h with h
          subst h
          exact ih bits (offset + 1) (by omega) h1
        · rename_i left o1 h1
          have hlt := ConstructTree_offset_lt _ _ _ _ _ h1
          split at h
          · rename_i e h2
            injection h with h
            subst h
            exact ih bits o1 (by omega) h2
          · cases h
      · cases h

/-! ## Lemmas on the code table and the decoding walk -/

theorem flipLast_concat_true (p : TBits) : flipLast (p ++ [true]) = p ++ [false] := by
  unfold flipLast
  have h1 : (p ++ [true]).length - 1 = p.length := by simp
  rw [h1, List.getD_eq_getElem?_getD, getElem?_at_length]
  simp

theorem tableFind_tableSet (c k : Char8) (b : TBits) (t : TCompressTable) :
    tableFind c (tableSet k b t) = if k = c then some b else tableFind c t := by
  induction t with
  | nil => simp [tableSet, tableFind]
  | cons e rest ih =>
    by_cases h1 : e.1 = k
    · by_cases h2 : k = c
      · simp [tableSet, tableFind, h1, h2]
      · have h3 : ¬ e.1 = c := by rw [h1]; exact h2
        simp [tableSet, tableFind, h1, h2, h3]
    · by_cases h3 : e.1 = c
      · subst h3
        have h2 : ¬ k = e.1 := fun h => h1 h.symm
        simp [tableSet, tableFind, h1, h2]
      · simp [tableSet, tableFind, h1, h3, ih]

theorem mem_symbols_iff (T : TNode) (c : Char8) :
    c ∈ symbols T ↔ ∃ q, (c, q) ∈ codesOf T := by
  induction T with
  | leaf v f => simp [symbols, codesOf]
  | node f l r ihl ihr =>
    simp only [symbols, codesOf, List.mem_append, List.mem_map, Prod.mk.injEq, ihl, ihr]
    constructor
    · rintro (⟨q, h⟩ | ⟨q, h⟩)
      · exact ⟨true :: q, Or.inl ⟨(c, q), h, rfl, rfl⟩⟩
      · exact ⟨false :: q, Or.inr ⟨(c, q), h, rfl, rfl⟩⟩
    · rintro ⟨q, ⟨e, he, h1, _⟩ | ⟨e, he, h1, _⟩⟩
      · exact Or.inl ⟨e.2, by rw [← h1]; exact he⟩
      · exact Or.inr ⟨e.2, by rw [← h1]; exact he⟩

/-- What `GetTable` leaves in the table for a key: a path of a leaf of the tree holding the
key when there is one, the previous entry otherwise. -/
theorem GetTable_find (T : TNode) :
    ∀ (table : TCompressTable) (p : TBits) (c : Char8),
      (c ∈ symbols T →
        ∃ q, (c, q) ∈ codesOf T ∧ tableFind c (GetTable T table p) = some (p ++ q)) ∧
      (c ∉ symbols T → tableFind c (GetTable T table p) = tableFind c table) := by
  induction T with
  | leaf v f =>
    intro table p c
    simp only [symbols, codesOf, GetTable, List.mem_singleton, tableFind_tableSet]
    constructor
    · intro h; exact ⟨[], by simp [h], by simp [h]⟩
    · intro h; have : ¬ v = c := fun e => h e.symm
      simp [this]
  | node f l r ihl ihr =>
    intro table p c
    simp only [GetTable, flipLast_concat_true, symbols, List.mem_append, codesOf]
    by_cases hr : c ∈ symbols r
    · obtain ⟨q, hq, hfind⟩ := (ihr (GetTable l table (p ++ [true])) (p ++ [false]) c).1 hr
      refine ⟨fun _ => ⟨false :: q, ?_, ?_⟩, fun h => absurd (Or.inr hr) h⟩
      · exact Or.inr (List.mem_map.2 ⟨(c, q), hq, rfl⟩)
      · rw [hfind]; simp
    · have hkeep := (ihr (GetTable l table (p ++ [true])) (p ++ [false]) c).2 hr
      rw [hkeep]
      by_cases hl : c ∈ symbols l
      · obtain ⟨q, hq, hfind⟩ := (ihl table (p ++ [true]) c).1 hl
        refine ⟨fun _ => ⟨true :: q, ?_, ?_⟩, fun h => absurd (Or.inl hl) h⟩
        · exact Or.inl (List.mem_map.2 ⟨(c, q), hq, rfl⟩)
        · rw [hfind]; simp
      · refine ⟨fun h => ?_, fun _ => (ihl table (p ++ [true]) c).2 hl⟩
        rcases h with h | h
        · exact absurd h hl
        · exact absurd h hr

/-- The entries of the table `GetTable` builds from the empty table are paths of leaves. -/
theorem GetTable_find_some (T : TNode) (c : Char8) (q : TBits)
    (h : tableFind c (GetTable T [] []) = some q) : (c, q) ∈ codesOf T := by
  by_cases hc : c ∈ symbols T
  · obtain ⟨q', hq', hfind⟩ := (GetTable_find T [] [] c).1 hc
    rw [hfind] at h
    simp only [List.nil_append, Option.some.injEq] at h
    rw [← h]; exact hq'
  · rw [(GetTable_find T [] [] c).2 hc] at h
    simp [tableFind] at h

/-- The path of a leaf is not an initial segment of the path of another leaf. -/
theorem codesOf_initial_segment (T : TNode) :
    ∀ (c d : Char8) (p q : TBits), (c, p) ∈ codesOf T → (d, q) ∈ codesOf T → p <+: q →
      c = d ∧ p = q := by
  induction T with
  | leaf v f =>
    intro c d p q hp hq _
    simp only [codesOf, List.mem_singleton, Prod.mk.injEq] at hp hq
    exact ⟨hp.1.trans hq.1.symm, hp.2.trans hq.2.symm⟩
  | node f l r ihl ihr =>
    intro c d p q hp hq hpq
    simp only [codesOf, List.mem_append, List.mem_map, Prod.mk.injEq] at hp hq
    rcases hp with ⟨e, he, h1, h2⟩ | ⟨e, he, h1, h2⟩ <;>
      rcases hq with ⟨e', he', h1', h2'⟩ | ⟨e', he', h1', h2'⟩
    · subst h1 h2 h1' h2'
      have hpq' : e.2 <+: e'.2 := by
        obtain ⟨t, ht⟩ := hpq
        exact ⟨t, by simpa using ht⟩
      have := ihl e.1 e'.1 e.2 e'.2 he he' hpq'
      exact ⟨this.1, by rw [this.2]⟩
    · subst h1 h2 h1' h2'
      obtain ⟨t, ht⟩ := hpq
      simp at ht
    · subst h1 h2 h1' h2'
      obtain ⟨t, ht⟩ := hpq
      simp at ht
    · subst h1 h2 h1' h2'
      have hpq' : e.2 <+: e'.2 := by
        obtain ⟨t, ht⟩ := hpq
        exact ⟨t, by simpa using ht⟩
      have := ihr e.1 e'.1 e.2 e'.2 he he' hpq'
      exact ⟨this.1, by rw [this.2]⟩

/-- Walking from a node with children along the path of one of its leaves emits the leaf's
value and goes back to the root. -/
theorem walk_code (root : TNode) (T : TNode) :
    ∀ (f : Nat) (l r : TNode), T = .node f l r →
    ∀ (v : Char8) (q rest : TBits) (result : List Char8), (v, q) ∈ codesOf T →
      walk root T (q ++ rest) result = walk root root rest (result ++ [v]) := by
  induction T with
  | leaf v f => intro f' l r h; cases h
  | node f l r ihl ihr =>
    intro f' l' r' _ v q rest result hq
    simp only [codesOf, List.mem_append, List.mem_map, Prod.mk.injEq] at hq
    rcases hq with ⟨e, he, h1, h2⟩ | ⟨e, he, h1, h2⟩
    · subst h1 h2
      cases l with
      | leaf w g =>
        simp only [codesOf, List.mem_singleton] at he
        subst he
        simp [walk]
      | node g ll lr =>
        have := ihl g ll lr rfl e.1 e.2 rest result he
        simpa [walk] using this
    · subst h1 h2
      cases r with
      | leaf w g =>
        simp only [codesOf, List.mem_singleton] at he
        subst he
        simp [walk]
      | node g rl rr =>
        have := ihr g rl rr rfl e.1 e.2 rest result he
        simpa [walk] using this

/-- The decoding loop inverts the concatenation of codes, on a root with children. -/
theorem walk_encode (f : Nat) (l r : TNode) (code : Char8 → TBits) :
    ∀ (data result : List Char8), (∀ c ∈ data, (c, code c) ∈ codesOf (.node f l r)) →
      walk (.node f l r) (.node f l r) (data.map code).flatten result = .ok (result ++ data) := by
  intro data
  induction data with
  | nil => intro result _; simp [walk]
  | cons c data ih =>
    intro result h
    rw [List.map_cons, List.flatten_cons,
      walk_code (.node f l r) (.node f l r) f l r rfl c (code c) _ result
        (h c (List.mem_cons_self _ _)),
      ih (result ++ [c]) (fun d hd => h d (List.mem_cons_of_mem _ hd))]
    simp


/-! ## Lemmas on the node list and the merge loop -/

theorem mmInsert_perm (k : Nat) (n : TNode) (fl : FreeList) :
    (mmInsert k n fl).Perm ((k, n) :: fl) := by
  induction fl with
  | nil => exact List.Perm.refl _
  | cons e rest ih =>
    unfold mmInsert
    split
    · exact List.Perm.refl _
    · exact (List.Perm.cons e ih).trans (List.Perm.swap _ _ _)

theorem mmInsert_length (k : Nat) (n : TNode) (fl : FreeList) :
    (mmInsert k n fl).length = fl.length + 1 := by
  simpa using (mmInsert_perm k n fl).length_eq

theorem allSymbols_perm {fl fl' : FreeList} (h : fl.Perm fl') :
    (allSymbols fl).Perm (allSymbols fl') :=
  List.Perm.flatMap_right _ h

theorem allSymbols_Add (node : TNode) (fl : FreeList) :
    (allSymbols (Add node fl)).Perm (symbols node ++ allSymbols fl) := by
  have h := allSymbols_perm (mmInsert_perm node.Freq node fl)
  simpa [Add, allSymbols] using h

theorem InitList_fold_perm (entries : List (Char8 × Nat)) :
    ∀ fl : FreeList,
      (entries.foldl (fun fl it => Add (.leaf it.1 it.2) fl) fl).Perm
        (entries.map (fun it => (it.2, TNode.leaf it.1 it.2)) ++ fl) := by
  induction entries with
  | nil => intro fl; exact List.Perm.refl _
  | cons it rest ih =>
    intro fl
    simp only [List.foldl_cons, List.map_cons, List.cons_append]
    refine (ih _).trans ?_
    refine (List.Perm.append_left _ (mmInsert_perm _ _ fl)).trans ?_
    exact List.perm_middle

theorem InitList_perm (entries : List (Char8 × Nat)) :
    (InitList entries).Perm (entries.map (fun it => (it.2, TNode.leaf it.1 it.2))) := by
  simpa [InitList] using InitList_fold_perm entries []

theorem InitList_length (entries : List (Char8 × Nat)) :
    (InitList entries).length = entries.length := by
  simpa using (InitList_perm entries).length_eq

theorem allSymbols_InitList (entries : List (Char8 × Nat)) :
    (allSymbols (InitList entries)).Perm (entries.map Prod.fst) := by
  refine (allSymbols_perm (InitList_perm entries)).trans ?_
  apply List.Perm.of_eq
  induction entries with
  | nil => rfl
  | cons it rest ih =>
    simp only [allSymbols, List.map_cons, List.flatMap_cons, symbols] at ih ⊢
    rw [ih]; rfl

/-- `JoinMin` on a list with at least two entries. -/
theorem JoinMin_cons_cons (e1 e2 : Nat × TNode) (rest : FreeList) :
    JoinMin (e1 :: e2 :: rest)
      = .ok (Add (if e1.2.Freq < e2.2.Freq then .node (e1.2.Freq + e2.2.Freq) e1.2 e2.2
                  else .node (e1.2.Freq + e2.2.Freq) e2.2 e1.2) rest) := rfl

theorem two_le_length {α : Type} (l : List α) (h : 1 < l.length) :
    ∃ a b rest, l = a :: b :: rest := by
  rcases l with _ | ⟨a, _ | ⟨b, rest⟩⟩
  · simp at h
  · simp at h
  · exact ⟨a, b, rest, rfl⟩

theorem JoinMin_length (fl fl' : FreeList) (h : JoinMin fl = .ok fl') (h1 : 1 < fl.length) :
    fl'.length + 1 = fl.length := by
  obtain ⟨a, b, rest, rfl⟩ := two_le_length fl h1
  rw [JoinMin_cons_cons] at h
  injection h with h
  rw [← h, Add, mmInsert_length]
  simp

theorem JoinMin_allSymbols (fl fl' : FreeList) (h : JoinMin fl = .ok fl') (h1 : 1 < fl.length) :
    (allSymbols fl').Perm (allSymbols fl) := by
  obtain ⟨a, b, rest, rfl⟩ := two_le_length fl h1
  rw [JoinMin_cons_cons] at h
  injection h with h
  rw [← h]
  refine (allSymbols_Add _ _).trans ?_
  simp only [allSymbols, List.flatMap_cons]
  split
  · simp [symbols]
  · simp only [symbols, ← List.append_assoc]
    exact List.Perm.append_right _ List.perm_append_comm

/-- The merge loop ends with one node when the list is not empty and the bound is at least
the number of merges. -/
theorem mergeLoop_ok :
    ∀ (fuel : Nat) (fl : FreeList), fl ≠ [] → fl.length ≤ fuel + 1 →
      ∃ e, mergeLoop fuel fl = .ok [e] := by
  intro fuel
  induction fuel with
  | zero =>
    intro fl hne hlen
    rcases fl with _ | ⟨e, _ | ⟨e2, rest⟩⟩
    · exact absurd rfl hne
    · exact ⟨e, by simp [mergeLoop]⟩
    · simp at hlen
  | succ fuel ih =>
    intro fl hne hlen
    rcases fl with _ | ⟨e, _ | ⟨e2, rest⟩⟩
    · exact absurd rfl hne
    · exact ⟨e, by simp [mergeLoop]⟩
    · have hgt : (e :: e2 :: rest).length > 1 := by simp
      rw [mergeLoop, if_pos hgt, JoinMin_cons_cons]
      simp only
      apply ih
      · intro h
        have := congrArg List.length h
        rw [Add, mmInsert_length] at this
        simp at this
      · rw [Add, mmInsert_length]
        simp only [List.length_cons] at hlen
        omega

/-- The bound `Compress` gives the merge loop is never exhausted. -/
theorem mergeLoop_fuel_enough (fl : FreeList) : mergeLoop fl.length fl ≠ .error .fuel := by
  cases fl with
  | nil => simp [mergeLoop]
  | cons e rest =>
    obtain ⟨e', he'⟩ := mergeLoop_ok (e :: rest).length (e :: rest) (by simp) (by omega)
    rw [he']
    simp

/-- A property of the node list that every merge step keeps holds when the loop ends. -/
theorem mergeLoop_invariant (P : FreeList → Prop)
    (hstep : ∀ fl fl', 1 < fl.length → P fl → JoinMin fl = .ok fl' → P fl') :
    ∀ (fuel : Nat) (fl out : FreeList), P fl → mergeLoop fuel fl = .ok out → P out := by
  intro fuel
  induction fuel with
  | zero =>
    intro fl out hP h
    unfold mergeLoop at h
    split at h
    · cases h
    · injection h with h; rw [← h]; exact hP
  | succ fuel ih =>
    intro fl out hP h
    unfold mergeLoop at h
    split at h
    · rename_i hgt
      split at h
      · rename_i fl' hj
        exact ih fl' out (hstep fl fl' hgt hP hj) h
      · cases h
    · injection h with h; rw [← h]; exact hP


/-! ## Lemmas on the frequency table and the built tree -/

theorem freqIncr_keys (c d : Char8) (t : List (Char8 × Nat)) :
    d ∈ (freqIncr c t).map Prod.fst ↔ d = c ∨ d ∈ t.map Prod.fst := by
  induction t with
  | nil => simp [freqIncr]
  | cons e rest ih =>
    unfold freqIncr
    split
    · rename_i h
      simp only [List.map_cons, List.mem_cons]
      constructor
      · rintro (h1 | h1)
        · exact Or.inr (Or.inl h1)
        · exact Or.inr (Or.inr h1)
      · rintro (h1 | h1 | h1)
        · exact Or.inl (h1.trans h.symm)
        · exact Or.inl h1
        · exact Or.inr h1
    · simp only [List.map_cons, List.mem_cons, ih]
      tauto

theorem freqTable_fold_keys (data : List Char8) :
    ∀ (t : List (Char8 × Nat)) (d : Char8),
      d ∈ (data.foldl (fun t c => freqIncr c t) t).map Prod.fst ↔ d ∈ data ∨ d ∈ t.map Prod.fst := by
  induction data with
  | nil => intro t d; simp
  | cons c rest ih =>
    intro t d
    rw [List.foldl_cons, ih, freqIncr_keys]
    simp only [List.mem_cons]
    tauto

/-- The keys of the frequency table are the bytes of the input. -/
theorem freqTable_keys (data : List Char8) (d : Char8) :
    d ∈ (freqTable data).map Prod.fst ↔ d ∈ data := by
  unfold freqTable
  rw [freqTable_fold_keys]
  simp

theorem freqTable_ne_nil (data : List Char8) (h : data ≠ []) : freqTable data ≠ [] := by
  obtain ⟨c, rest, rfl⟩ := List.exists_cons_of_ne_nil h
  intro h0
  have := (freqTable_keys (c :: rest) c).2 (List.mem_cons_self _ _)
  rw [h0] at this
  simp at this

/-- For a non-empty enumeration the merge loop ends and leaves a root whose leaves hold the
enumerated keys. -/
theorem buildTree_ok (entries : List (Char8 × Nat)) (hne : entries ≠ []) :
    ∃ root, buildTree entries = .ok root ∧ (symbols root).Perm (entries.map Prod.fst) := by
  have hlen : (InitList entries).length = entries.length := InitList_length entries
  have hne' : InitList entries ≠ [] := by
    intro h; rw [h] at hlen
    exact hne (List.length_eq_zero.1 hlen.symm)
  obtain ⟨e, he⟩ := mergeLoop_ok (InitList entries).length (InitList entries) hne' (by omega)
  have hinv := mergeLoop_invariant (fun fl => (allSymbols fl).Perm (entries.map Prod.fst))
    (fun fl fl' h1 hP hj => (JoinMin_allSymbols fl fl' hj h1).trans hP)
    (InitList entries).length (InitList entries) [e] (allSymbols_InitList entries) he
  refine ⟨e.2, ?_, ?_⟩
  · simp [buildTree, he, rootOf]
  · simpa [allSymbols] using hinv

theorem buildTree_of_freqTable (entries : List (Char8 × Nat)) (data : List Char8)
    (hperm : entries.Perm (freqTable data)) (hne : data ≠ []) :
    ∃ root, buildTree entries = .ok root ∧ ∀ c, c ∈ symbols root ↔ c ∈ data := by
  have hne' : entries ≠ [] := by
    intro h; rw [h] at hperm
    exact freqTable_ne_nil data hne (List.Perm.nil_eq hperm).symm
  obtain ⟨root, hroot, hsym⟩ := buildTree_ok entries hne'
  refine ⟨root, hroot, fun c => ?_⟩
  rw [hsym.mem_iff, (hperm.map Prod.fst).mem_iff, freqTable_keys]

theorem codesOf_zeroFreq (T : TNode) : codesOf (zeroFreq T) = codesOf T := by
  induction T with
  | leaf v f => rfl
  | node f l r ihl ihr => simp [zeroFreq, codesOf, ihl, ihr]

/-- `Decompress` after packing the bits `Compress` produces for a root with children whose
leaves hold every byte of the input. -/
theorem Decompress_compressedBits (f : Nat) (l r : TNode) (data : List Char8)
    (hsym : ∀ c ∈ data, c ∈ symbols (.node f l r)) :
    Decompress (BitsToString (compressedBits (.node f l r) data)) = .ok data := by
  have hcons := ConstructTree_SerializeTree (.node f l r) []
    ((data.map (tableGet (GetTable (.node f l r) [] []))).flatten)
    ((compressedBits (.node f l r) data).length + 1)
    (by simp only [compressedBits, List.length_append]; omega)
  simp only [List.nil_append, List.length_nil, Nat.zero_add] at hcons
  have hcode : ∀ c ∈ data,
      (c, tableGet (GetTable (.node f l r) [] []) c) ∈ codesOf (.node 0 (zeroFreq l) (zeroFreq r)) := by
    intro c hc
    obtain ⟨q, hq, hfind⟩ := (GetTable_find (.node f l r) [] [] c).1 (hsym c hc)
    have : codesOf (.node 0 (zeroFreq l) (zeroFreq r)) = codesOf (.node f l r) :=
      codesOf_zeroFreq (.node f l r)
    rw [this, tableGet, hfind]
    simpa using hq
  have hwalk := walk_encode 0 (zeroFreq l) (zeroFreq r)
    (tableGet (GetTable (.node f l r) [] [])) data [] hcode
  unfold Decompress
  rw [StringToBits_BitsToString]
  simp only [compressedBits] at hcons ⊢
  rw [hcons]
  simp only [zeroFreq, List.drop_left]
  simpa using hwalk

/-- The round trip, for an input with two different bytes and any enumeration of its
frequency table. -/
theorem roundtrip_core (entries : List (Char8 × Nat)) (data : List Char8)
    (hperm : entries.Perm (freqTable data))
    (hdistinct : ∃ c ∈ data, ∃ d ∈ data, c ≠ d) :
    ∃ out, Compress entries data = .ok out ∧ Decompress out = .ok data := by
  obtain ⟨c, hc, d, hd, hcd⟩ := hdistinct
  obtain ⟨root, hroot, hsym⟩ := buildTree_of_freqTable entries data hperm
    (List.ne_nil_of_mem hc)
  refine ⟨BitsToString (compressedBits root data), by simp [Compress, hroot], ?_⟩
  cases root with
  | leaf v g =>
    have h1 := (hsym c).2 hc
    have h2 := (hsym d).2 hd
    simp only [symbols, List.mem_singleton] at h1 h2
    exact absurd (h1.trans h2.symm) hcd
  | node g l r =>
    exact Decompress_compressedBits g l r data (fun c hc => (hsym c).2 hc)


/-! ## Lemmas on weights, and on inputs made of one byte value -/

theorem JoinMin_weightOk (fl fl' : FreeList) (h1 : 1 < fl.length)
    (hP : ∀ e ∈ fl, weightOk e.2) (h : JoinMin fl = .ok fl') : ∀ e ∈ fl', weightOk e.2 := by
  obtain ⟨a, b, rest, rfl⟩ := two_le_length fl h1
  rw [JoinMin_cons_cons] at h
  injection h with h
  intro e he
  rw [← h, Add, (mmInsert_perm _ _ _).mem_iff, List.mem_cons] at he
  have ha := hP a (by simp)
  have hb := hP b (by simp)
  rcases he with he | he
  · rw [he]
    simp only
    split
    · rename_i hlt
      exact ⟨rfl, Nat.le_of_lt hlt, ha, hb⟩
    · rename_i hge
      exact ⟨Nat.add_comm _ _, Nat.le_of_not_lt hge, hb, ha⟩
  · exact hP e (by simp [he])

theorem buildTree_weightOk (entries : List (Char8 × Nat)) (root : TNode)
    (h : buildTree entries = .ok root) : weightOk root := by
  unfold buildTree at h
  split at h
  · cases h
  · rename_i fl hfl
    have hinv := mergeLoop_invariant (fun fl => ∀ e ∈ fl, weightOk e.2) JoinMin_weightOk
      (InitList entries).length (InitList entries) fl
      (by
        intro e he
        rw [(InitList_perm entries).mem_iff, List.mem_map] at he
        obtain ⟨it, _, rfl⟩ := he
        trivial)
      hfl
    cases fl with
    | nil => cases h
    | cons e rest =>
      simp only [rootOf, Except.ok.injEq] at h
      rw [← h]
      exact hinv e (List.mem_cons_self _ _)

theorem freqTable_fold_replicate (c : Char8) :
    ∀ (n k : Nat),
      (List.replicate n c).foldl (fun t c => freqIncr c t) [(c, k)] = [(c, k + n)] := by
  intro n
  induction n with
  | zero => intro k; rfl
  | succ n ih =>
    intro k
    rw [List.replicate_succ, List.foldl_cons]
    simp only [freqIncr, if_true]
    rw [ih (k + 1)]
    congr 2
    omega

theorem freqTable_replicate (c : Char8) (n : Nat) :
    freqTable (List.replicate (n + 1) c) = [(c, n + 1)] := by
  unfold freqTable
  rw [List.replicate_succ, List.foldl_cons]
  simp only [freqIncr]
  rw [freqTable_fold_replicate c n 1]
  congr 2
  omega

theorem mergeLoop_singleton (fuel : Nat) (e : Nat × TNode) : mergeLoop fuel [e] = .ok [e] := by
  cases fuel <;> simp [mergeLoop]

/-- `Decompress` of what `Compress` packs for a root without children: the decoding loop has
no bit to read. -/
theorem Decompress_leaf (v : Char8) (g : Nat) (data : List Char8)
    (hdata : ∀ c ∈ data, c = v) :
    Decompress (BitsToString (compressedBits (.leaf v g) data)) = .ok [] := by
  have hcodes : (data.map (tableGet (GetTable (.leaf v g) [] []))).flatten = [] := by
    rw [List.flatten_eq_nil_iff]
    intro l hl
    obtain ⟨c, hc, rfl⟩ := List.mem_map.1 hl
    rw [hdata c hc]
    simp [GetTable, tableSet, tableGet, tableFind]
  have hcons := ConstructTree_SerializeTree (.leaf v g) [] []
    ((compressedBits (.leaf v g) data).length + 1)
    (by simp only [compressedBits, List.length_append]; omega)
  simp only [List.nil_append, List.length_nil, Nat.zero_add, List.append_nil] at hcons
  unfold Decompress
  rw [StringToBits_BitsToString]
  simp only [compressedBits, hcodes, List.append_nil] at hcons ⊢
  rw [hcons]
  simp [walk]

/-! ## The claims -/

/-- C1. Round trip: for every byte sequence `x` with at least two distinct byte values and
every enumeration `entries` of its frequency table, `Compress` completes and `Decompress`
of its output completes and gives back `x`. -/
theorem C1_round_trip (x : List Char8) (entries : List (Char8 × Nat))
    (hperm : entries.Perm (freqTable x))
    (hdistinct : ∃ c ∈ x, ∃ d ∈ x, c ≠ d) :
    ∃ out, Compress entries x = .ok out ∧ Decompress out = .ok x :=
  roundtrip_core entries x hperm hdistinct

/-- C1 at the input `00 ff 00 80 ff` with the table enumerated as `80, ff, 00`. -/
theorem C1_round_trip_witness :
    ∃ out, Compress [(128, 1), (255, 2), (0, 2)] [0, 255, 0, 128, 255] = .ok out
      ∧ Decompress out = .ok [0, 255, 0, 128, 255] :=
  C1_round_trip [0, 255, 0, 128, 255] [(128, 1), (255, 2), (0, 2)] (by decide)
    ⟨0, by decide, 255, by decide, by decide⟩

/-- C2. Packing inverse: for every bit sequence `b`, of any length, `StringToBits` of
`BitsToString b` completes and equals `b`. -/
theorem C2_packing_inverse (b : TBits) : StringToBits (BitsToString b) = .ok b :=
  StringToBits_BitsToString b

/-- C3. Pack format: `BitsToString b` has `ceil(n / 8) + 1` bytes for `n` bits; bit `7 - k`
of byte `j` (for `j` among the first `ceil(n / 8)`) is bit `8 * j + k` of `b`, and zero where
`b` has no such bit; the last byte is the number of padding bits, `(8 - n mod 8) mod 8`, which
is at most 7. -/
theorem C3_pack_format (b : TBits) :
    (BitsToString b).length = (b.length + 7) / 8 + 1
    ∧ (∀ j, j < (b.length + 7) / 8 → ∀ k, k < 8 →
        ((BitsToString b).getD j 0).val.testBit (7 - k) = b.getD (8 * j + k) false)
    ∧ (∃ last, (BitsToString b).getLast? = some last
        ∧ last.val = (8 - b.length % 8) % 8 ∧ last.val ≤ 7) := by
  refine ⟨BitsToString_length b, ?_, ?_⟩
  · intro j hj k hk
    rw [BitsToString_getD b j hj]
    exact FromBits_testBit b (8 * j) k hk
  · have h := BitsToString_getLast b
    cases hl : (BitsToString b).getLast? with
    | none => rw [hl] at h; simp at h
    | some last =>
      rw [hl] at h
      simp only [Option.map_some', Option.some.injEq] at h
      exact ⟨last, rfl, h, by rw [h]; omega⟩

/-- C4. Tree serialisation round trip: on `SerializeTree T` followed by any bits `s`,
`ConstructTree` from offset 0 (with the bound `Decompress` gives it, `extra = 1`, or any other)
rebuilds a tree of the same shape with the same leaf values, and leaves the offset at the
length of `SerializeTree T`, where `s` starts. -/
theorem C4_tree_round_trip (T : TNode) (s : TBits) (extra : Nat) :
    ∃ T', ConstructTree ((SerializeTree T ++ s).length + extra) (SerializeTree T ++ s) 0
        = .ok (T', (SerializeTree T).length)
      ∧ sameShape T' T
      ∧ (SerializeTree T ++ s).drop (SerializeTree T).length = s := by
  refine ⟨zeroFreq T, ?_, sameShape_zeroFreq T, List.drop_left _ _⟩
  have h := ConstructTree_SerializeTree T [] s ((SerializeTree T ++ s).length + extra)
    (by simp only [List.length_append]; omega)
  simpa using h

/-- C5. The codes are free of initial segments: for a non-empty input and any enumeration of
its frequency table the tree is built, and in the table `GetTable` derives from it the code
of a symbol is never an initial segment of the code of a different symbol; in particular the
two codes differ. -/
theorem C5_codes_no_initial_segment (x : List Char8) (entries : List (Char8 × Nat))
    (hne : x ≠ []) (hperm : entries.Perm (freqTable x)) :
    ∃ root, buildTree entries = .ok root ∧
      ∀ (c d : Char8) (p q : TBits), c ≠ d →
        tableFind c (GetTable root [] []) = some p →
        tableFind d (GetTable root [] []) = some q → ¬ p <+: q ∧ p ≠ q := by
  obtain ⟨root, hroot, _⟩ := buildTree_of_freqTable entries x hperm hne
  refine ⟨root, hroot, ?_⟩
  intro c d p q hcd hp hq
  have hp' := GetTable_find_some root c p hp
  have hq' := GetTable_find_some root d q hq
  constructor
  · intro hpq
    exact hcd (codesOf_initial_segment root c d p q hp' hq' hpq).1
  · intro hpq
    exact hcd (codesOf_initial_segment root c d p q hp' hq' (by rw [hpq])).1

/-- C5 at the input `abracadabra` with its table enumerated in first-occurrence order. -/
theorem C5_codes_no_initial_segment_witness :
    ∃ root, buildTree (freqTable [97, 98, 114, 97, 99, 97, 100, 97, 98, 114, 97]) = .ok root ∧
      ∀ (c d : Char8) (p q : TBits), c ≠ d →
        tableFind c (GetTable root [] []) = some p →
        tableFind d (GetTable root [] []) = some q → ¬ p <+: q ∧ p ≠ q :=
  C5_codes_no_initial_segment [97, 98, 114, 97, 99, 97, 100, 97, 98, 114, 97] _ (by decide)
    (List.Perm.refl _)

theorem freqTable_sample :
    freqTable [97, 97, 97, 97, 98, 98, 98, 99, 99] = [(97, 4), (98, 3), (99, 2)] := by decide

/-- The enumerations of the frequency table of `aaaabbbcc`. -/
theorem sample_entries (entries : List (Char8 × Nat))
    (hperm : entries.Perm (freqTable [97, 97, 97, 97, 98, 98, 98, 99, 99])) :
    entries ∈ [[(97, 4), (98, 3), (99, 2)], [(98, 3), (97, 4), (99, 2)],
      [(99, 2), (98, 3), (97, 4)], [(98, 3), (99, 2), (97, 4)],
      [(99, 2), (97, 4), (98, 3)], [(97, 4), (99, 2), (98, 3)]] := by
  rw [freqTable_sample] at hperm
  have h := List.mem_permutations'.2 hperm
  simp only [List.permutations', List.permutations'Aux, List.flatMap_cons, List.flatMap_nil,
    List.map_cons, List.map_nil, List.append_nil, List.cons_append, List.nil_append,
    List.mem_cons, List.mem_singleton, List.not_mem_nil, or_false] at h
  simp only [List.mem_cons, List.mem_singleton, List.not_mem_nil, or_false]
  tauto

/-- C6. For the input `aaaabbbcc` and any enumeration of its frequency table, the code of
`a` has length 1, the codes of `b` and `c` have length 2, and `Decompress` of the output of
`Compress` is the input. -/
theorem C6_sample_scenario (entries : List (Char8 × Nat))
    (hperm : entries.Perm (freqTable [97, 97, 97, 97, 98, 98, 98, 99, 99])) :
    (∃ root, buildTree entries = .ok root
      ∧ (tableFind 97 (GetTable root [] [])).map List.length = some 1
      ∧ (tableFind 98 (GetTable root [] [])).map List.length = some 2
      ∧ (tableFind 99 (GetTable root [] [])).map List.length = some 2)
    ∧ ∃ out, Compress entries [97, 97, 97, 97, 98, 98, 98, 99, 99] = .ok out
      ∧ Decompress out = .ok [97, 97, 97, 97, 98, 98, 98, 99, 99] := by
  refine ⟨?_, roundtrip_core entries _ hperm ⟨97, by decide, 98, by decide, by decide⟩⟩
  have h := sample_entries entries hperm
  simp only [List.mem_cons, List.mem_singleton, List.not_mem_nil, or_false] at h
  rcases h with h | h | h | h | h | h <;> subst h <;>
    exact ⟨.node 9 (.leaf 97 4) (.node 5 (.leaf 99 2) (.leaf 98 3)), rfl, rfl, rfl, rfl⟩

/-- C6 with the table enumerated as `c, a, b`. -/
theorem C6_sample_scenario_witness :
    (∃ root, buildTree [(99, 2), (97, 4), (98, 3)] = .ok root
      ∧ (tableFind 97 (GetTable root [] [])).map List.length = some 1
      ∧ (tableFind 98 (GetTable root [] [])).map List.length = some 2
      ∧ (tableFind 99 (GetTable root [] [])).map List.length = some 2)
    ∧ ∃ out, Compress [(99, 2), (97, 4), (98, 3)] [97, 97, 97, 97, 98, 98, 98, 99, 99] = .ok out
      ∧ Decompress out = .ok [97, 97, 97, 97, 98, 98, 98, 99, 99] :=
  C6_sample_scenario [(99, 2), (97, 4), (98, 3)] (by decide)

/-- C7. For an input of `n >= 1` copies of one byte `c` and any enumeration of its frequency
table: the node list has one node, so the merge loop does not run; the root is a leaf holding
`c`; the code of `c` is empty; `Compress` completes, and `Decompress` of its output completes
with the empty byte sequence, which is not the input. -/
theorem C7_single_symbol (c : Char8) (n : Nat) (hn : 1 ≤ n) (entries : List (Char8 × Nat))
    (hperm : entries.Perm (freqTable (List.replicate n c))) :
    (InitList entries).length = 1
    ∧ (∀ fuel, mergeLoop fuel (InitList entries) = .ok (InitList entries))
    ∧ buildTree entries = .ok (.leaf c n)
    ∧ tableFind c (GetTable (.leaf c n) [] []) = some []
    ∧ ∃ out, Compress entries (List.replicate n c) = .ok out
        ∧ Decompress out = .ok [] ∧ ([] : List Char8) ≠ List.replicate n c := by
  obtain ⟨m, rfl⟩ : ∃ m, n = m + 1 := ⟨n - 1, by omega⟩
  rw [freqTable_replicate, List.perm_singleton] at hperm
  subst hperm
  have hinit : InitList [(c, m + 1)] = [(m + 1, .leaf c (m + 1))] := rfl
  have hbuild : buildTree [(c, m + 1)] = .ok (.leaf c (m + 1)) := by
    simp [buildTree, hinit, mergeLoop_singleton, rootOf]
  refine ⟨by rw [hinit]; rfl, fun fuel => by rw [hinit]; exact mergeLoop_singleton _ _,
    hbuild, by simp [GetTable, tableSet, tableFind], ?_⟩
  refine ⟨BitsToString (compressedBits (.leaf c (m + 1)) (List.replicate (m + 1) c)),
    by simp [Compress, hbuild], ?_, by simp [List.replicate_succ]⟩
  exact Decompress_leaf c (m + 1) _ (fun d hd => List.eq_of_mem_replicate hd)

/-- C7 at the input `xxx`. -/
theorem C7_single_symbol_witness :
    (InitList [(120, 3)]).length = 1
    ∧ (∀ fuel, mergeLoop fuel (InitList [(120, 3)]) = .ok (InitList [(120, 3)]))
    ∧ buildTree [(120, 3)] = .ok (.leaf 120 3)
    ∧ tableFind 120 (GetTable (.leaf 120 3) [] []) = some []
    ∧ ∃ out, Compress [(120, 3)] (List.replicate 3 120) = .ok out
        ∧ Decompress out = .ok [] ∧ ([] : List Char8) ≠ List.replicate 3 120 :=
  C7_single_symbol 120 3 (by decide) [(120, 3)] (by decide)

/-- C8. `Compress` fails exactly on the empty input: there it reads the root of an empty node
list; on a non-empty input, with any enumeration of its frequency table, the tree is built
and `Compress` completes (no `PopMin` on an empty list, no missing root), and every input
byte has an entry in the code table. -/
theorem C8_compress_fails_iff_empty (x : List Char8) (entries : List (Char8 × Nat))
    (hperm : entries.Perm (freqTable x)) :
    (x = [] → Compress entries x = .error .noRoot)
    ∧ (x ≠ [] → ∃ root out, buildTree entries = .ok root ∧ Compress entries x = .ok out
        ∧ ∀ c ∈ x, ∃ code, tableFind c (GetTable root [] []) = some code) := by
  constructor
  · intro hx
    subst hx
    have : entries = [] := List.Perm.eq_nil hperm
    subst this
    rfl
  · intro hx
    obtain ⟨root, hroot, hsym⟩ := buildTree_of_freqTable entries x hperm hx
    refine ⟨root, BitsToString (compressedBits root x), hroot, by simp [Compress, hroot], ?_⟩
    intro c hc
    obtain ⟨q, _, hfind⟩ := (GetTable_find root [] [] c).1 ((hsym c).2 hc)
    exact ⟨[] ++ q, hfind⟩

/-- C8 at the empty input and at the input `ab`. -/
theorem C8_compress_fails_iff_empty_witness :
    Compress [] [] = .error .noRoot
    ∧ ∃ root out, buildTree [(98, 1), (97, 1)] = .ok root
        ∧ Compress [(98, 1), (97, 1)] [97, 98] = .ok out
        ∧ ∀ c ∈ [(97 : Char8), 98], ∃ code, tableFind c (GetTable root [] []) = some code :=
  ⟨(C8_compress_fails_iff_empty [] [] (by decide)).1 rfl,
    (C8_compress_fails_iff_empty [97, 98] [(98, 1), (97, 1)] (by decide)).2 (by decide)⟩

/-- C9 as stated fails: in the list of two leaves of weight 1, `PopMin` gives the leaf `a`
first and the leaf `b` second, the weights are equal, and `JoinMin` makes the second-popped
leaf `b` the Left child and the first-popped leaf `a` the Right child. -/
theorem C9_tie_first_popped_left_counterexample :
    PopMin [(1, .leaf 97 1), (1, .leaf 98 1)] = .ok (.leaf 97 1, [(1, .leaf 98 1)])
    ∧ PopMin [(1, .leaf 98 1)] = .ok (.leaf 98 1, [])
    ∧ (TNode.leaf 97 1).Freq = (TNode.leaf 98 1).Freq
    ∧ JoinMin [(1, .leaf 97 1), (1, .leaf 98 1)] = .ok [(2, .node 2 (.leaf 98 1) (.leaf 97 1))]
    ∧ JoinMin [(1, .leaf 97 1), (1, .leaf 98 1)]
        ≠ .ok (Add (.node ((TNode.leaf 97 1).Freq + (TNode.leaf 98 1).Freq)
            (.leaf 97 1) (.leaf 98 1)) []) := by
  refine ⟨rfl, rfl, rfl, rfl, ?_⟩
  simp [JoinMin, PopMin, Add, mmInsert, TNode.Freq]

/-- C9, amended. When `JoinMin` pops `a` first and `b` second and the two have equal weights,
the second-popped node `b` becomes the Left child of the new node and the first-popped node
`a` its Right child. -/
theorem C9_tie_second_popped_left (fl fl1 fl2 : FreeList) (a b : TNode)
    (ha : PopMin fl = .ok (a, fl1)) (hb : PopMin fl1 = .ok (b, fl2))
    (htie : a.Freq = b.Freq) :
    JoinMin fl = .ok (Add (.node (a.Freq + b.Freq) b a) fl2) := by
  unfold JoinMin
  rw [ha]
  simp only
  rw [hb]
  simp only [htie, Nat.lt_irrefl, if_false]

/-- C9, amended, at two leaves of weight 1. -/
theorem C9_tie_second_popped_left_witness :
    JoinMin [(1, .leaf 97 1), (1, .leaf 98 1)]
      = .ok (Add (.node ((TNode.leaf 97 1).Freq + (TNode.leaf 98 1).Freq)
          (.leaf 98 1) (.leaf 97 1)) []) :=
  C9_tie_second_popped_left [(1, .leaf 97 1), (1, .leaf 98 1)] [(1, .leaf 98 1)] []
    (.leaf 97 1) (.leaf 98 1) rfl rfl rfl

/-- C10. Weight invariant: for a non-empty input and any enumeration of its frequency table,
the tree is built, and every node with children in it weighs the sum of its two children,
with a Left child not heavier than the Right child. -/
theorem C10_weight_invariant (x : List Char8) (entries : List (Char8 × Nat))
    (hne : x ≠ []) (hperm : entries.Perm (freqTable x)) :
    ∃ root, buildTree entries = .ok root ∧ weightOk root := by
  obtain ⟨root, hroot, _⟩ := buildTree_of_freqTable entries x hperm hne
  exact ⟨root, hroot, buildTree_weightOk entries root hroot⟩

/-- C10 at the input `abracadabra` with its table enumerated in first-occurrence order. -/
theorem C10_weight_invariant_witness :
    ∃ root, buildTree (freqTable [97, 98, 114, 97, 99, 97, 100, 97, 98, 114, 97]) = .ok root
      ∧ weightOk root :=
  C10_weight_invariant [97, 98, 114, 97, 99, 97, 100, 97, 98, 114, 97] _ (by decide)
    (List.Perm.refl _)

/-! ## Lemmas on the contents of the frequency table and the leaves -/

theorem getCount_freqIncr (c d : Char8) (t : List (Char8 × Nat)) :
    getCount (freqIncr c t) d = getCount t d + (if d = c then 1 else 0) := by
  induction t with
  | nil =>
    by_cases h : c = d
    · simp [freqIncr, getCount, h]
    · have h' : ¬ d = c := fun e => h e.symm
      simp [freqIncr, getCount, h, h']
  | cons e rest ih =>
    unfold freqIncr
    by_cases h1 : e.1 = c
    · by_cases h2 : e.1 = d
      · have h3 : d = c := h2.symm.trans h1
        simp [h1, getCount, h3]
      · have h3 : ¬ d = c := fun h => h2 (h1.trans h.symm)
        have h4 : ¬ c = d := fun h => h3 h.symm
        simp [h1, getCount, h3, h4]
    · by_cases h2 : e.1 = d
      · have h3 : ¬ d = c := fun h => h1 (h2.trans h)
        simp [h1, getCount, h2, h3]
      · simp [h1, getCount, h2, ih]

theorem getCount_fold (data : List Char8) :
    ∀ (t : List (Char8 × Nat)) (d : Char8),
      getCount (data.foldl (fun t c => freqIncr c t) t) d = getCount t d + data.count d := by
  induction data with
  | nil => intro t d; simp
  | cons c rest ih =>
    intro t d
    rw [List.foldl_cons, ih, getCount_freqIncr, List.count_cons]
    by_cases h : d = c
    · subst h; simp; omega
    · have h' : ¬ c = d := fun e => h e.symm
      simp [h, h']

theorem getCount_freqTable (data : List Char8) (d : Char8) :
    getCount (freqTable data) d = data.count d := by
  unfold freqTable
  rw [getCount_fold]
  simp [getCount]

theorem freqIncr_map_fst (c : Char8) (t : List (Char8 × Nat)) :
    (freqIncr c t).map Prod.fst
      = if c ∈ t.map Prod.fst then t.map Prod.fst else t.map Prod.fst ++ [c] := by
  induction t with
  | nil => simp [freqIncr]
  | cons e rest ih =>
    unfold freqIncr
    by_cases h1 : e.1 = c
    · simp [h1]
    · have h2 : ¬ c = e.1 := fun h => h1 h.symm
      simp only [h1, if_false, List.map_cons, ih, List.mem_cons, h2, false_or]
      split <;> simp

theorem freqIncr_nodup (c : Char8) (t : List (Char8 × Nat)) (h : (t.map Prod.fst).Nodup) :
    ((freqIncr c t).map Prod.fst).Nodup := by
  rw [freqIncr_map_fst]
  split
  · exact h
  · rename_i hc
    rw [List.nodup_append]
    exact ⟨h, List.nodup_singleton c, by
      intro a ha hb
      rw [List.mem_singleton] at hb
      subst hb
      exact hc ha⟩

theorem freqTable_fold_nodup (data : List Char8) :
    ∀ t : List (Char8 × Nat), (t.map Prod.fst).Nodup →
      ((data.foldl (fun t c => freqIncr c t) t).map Prod.fst).Nodup := by
  induction data with
  | nil => intro t h; exact h
  | cons c rest ih => intro t h; exact ih _ (freqIncr_nodup c t h)

/-- The frequency table has one entry per key. -/
theorem freqTable_nodup (data : List Char8) : ((freqTable data).map Prod.fst).Nodup :=
  freqTable_fold_nodup data [] List.nodup_nil

theorem getCount_of_mem (t : List (Char8 × Nat)) (h : (t.map Prod.fst).Nodup)
    (d : Char8) (n : Nat) (hmem : (d, n) ∈ t) : getCount t d = n := by
  induction t with
  | nil => cases hmem
  | cons e rest ih =>
    rw [List.map_cons, List.nodup_cons] at h
    rcases List.mem_cons.1 hmem with he | he
    · subst he; simp [getCount]
    · have hne : ¬ e.1 = d := by
        intro heq
        exact h.1 (heq ▸ List.mem_map.2 ⟨(d, n), he, rfl⟩)
      simp [getCount, hne, ih h.2 he]

/-- An entry of the frequency table holds the number of occurrences of its key. -/
theorem freqTable_mem_count (data : List Char8) (d : Char8) (n : Nat)
    (h : (d, n) ∈ freqTable data) : n = data.count d := by
  rw [← getCount_freqTable, getCount_of_mem _ (freqTable_nodup data) d n h]

theorem freqIncr_sum (c : Char8) (t : List (Char8 × Nat)) :
    ((freqIncr c t).map Prod.snd).sum = (t.map Prod.snd).sum + 1 := by
  induction t with
  | nil => simp [freqIncr]
  | cons e rest ih =>
    unfold freqIncr
    split
    · simp; omega
    · simp [ih]; omega

theorem freqTable_fold_sum (data : List Char8) :
    ∀ t : List (Char8 × Nat),
      ((data.foldl (fun t c => freqIncr c t) t).map Prod.snd).sum
        = (t.map Prod.snd).sum + data.length := by
  induction data with
  | nil => intro t; simp
  | cons c rest ih =>
    intro t
    rw [List.foldl_cons, ih, freqIncr_sum, List.length_cons]
    omega

/-- The counts of the frequency table add up to the length of the input. -/
theorem freqTable_sum (data : List Char8) :
    ((freqTable data).map Prod.snd).sum = data.length := by
  unfold freqTable
  rw [freqTable_fold_sum]
  simp

/-- The frequency table has as many entries as the input has distinct byte values. -/
theorem freqTable_length (data : List Char8) : (freqTable data).length = data.dedup.length := by
  have h : ((freqTable data).map Prod.fst).Perm data.dedup := by
    rw [List.perm_ext_iff_of_nodup (freqTable_nodup data) (List.nodup_dedup data)]
    intro a
    rw [freqTable_keys, List.mem_dedup]
  simpa using h.length_eq

theorem symbols_eq_leavesOf (T : TNode) : symbols T = (leavesOf T).map Prod.fst := by
  induction T with
  | leaf v f => rfl
  | node f l r ihl ihr => simp [symbols, leavesOf, ihl, ihr]

theorem allLeaves_perm {fl fl' : FreeList} (h : fl.Perm fl') :
    (allLeaves fl).Perm (allLeaves fl') :=
  List.Perm.flatMap_right _ h

theorem allLeaves_Add (node : TNode) (fl : FreeList) :
    (allLeaves (Add node fl)).Perm (leavesOf node ++ allLeaves fl) := by
  have h := allLeaves_perm (mmInsert_perm node.Freq node fl)
  simpa [Add, allLeaves] using h

theorem allLeaves_InitList (entries : List (Char8 × Nat)) :
    (allLeaves (InitList entries)).Perm entries := by
  refine (allLeaves_perm (InitList_perm entries)).trans ?_
  apply List.Perm.of_eq
  induction entries with
  | nil => rfl
  | cons it rest ih =>
    simp only [allLeaves, List.map_cons, List.flatMap_cons, leavesOf] at ih ⊢
    rw [ih]; rfl

theorem JoinMin_allLeaves (fl fl' : FreeList) (h : JoinMin fl = .ok fl') (h1 : 1 < fl.length) :
    (allLeaves fl').Perm (allLeaves fl) := by
  obtain ⟨a, b, rest, rfl⟩ := two_le_length fl h1
  rw [JoinMin_cons_cons] at h
  injection h with h
  rw [← h]
  refine (allLeaves_Add _ _).trans ?_
  simp only [allLeaves, List.flatMap_cons]
  split
  · simp [leavesOf]
  · simp only [leavesOf, ← List.append_assoc]
    exact List.Perm.append_right _ List.perm_append_comm

/-- The leaves of the built tree, with their weights, are the enumerated entries. -/
theorem buildTree_leaves (entries : List (Char8 × Nat)) (root : TNode)
    (h : buildTree entries = .ok root) : (leavesOf root).Perm entries := by
  unfold buildTree at h
  split at h
  · cases h
  · rename_i fl hfl
    have hinv := mergeLoop_invariant (fun fl => (allLeaves fl).Perm entries)
      (fun fl fl' h1 hP hj => (JoinMin_allLeaves fl fl' hj h1).trans hP)
      (InitList entries).length (InitList entries) fl (allLeaves_InitList entries) hfl
    have hlen : fl.length ≤ 1 := by
      cases hnil : InitList entries with
      | nil => rw [hnil] at hfl; simp [mergeLoop] at hfl; rw [hfl]; simp
      | cons e rest =>
        obtain ⟨e', he'⟩ := mergeLoop_ok (InitList entries).length (InitList entries)
          (by rw [hnil]; simp) (by omega)
        rw [he'] at hfl
        injection hfl with hfl
        rw [← hfl]; simp
    rcases fl with _ | ⟨e, _ | ⟨e2, rest⟩⟩
    · cases h
    · simp only [rootOf, Except.ok.injEq] at h
      rw [← h]
      simpa [allLeaves] using hinv
    · simp at hlen

/-- A tree satisfying `weightOk` weighs the sum of its leaves. -/
theorem weightOk_Freq (T : TNode) (h : weightOk T) :
    T.Freq = ((leavesOf T).map Prod.snd).sum := by
  induction T with
  | leaf v f => simp [TNode.Freq, leavesOf]
  | node f l r ihl ihr =>
    obtain ⟨h1, _, h3, h4⟩ := h
    simp only [TNode.Freq, leavesOf, List.map_append, List.sum_append]
    rw [h1, ihl h3, ihr h4]

/-- The leaves of the tree built for a non-empty input. -/
theorem buildTree_leaves_count (entries : List (Char8 × Nat)) (data : List Char8)
    (hne : data ≠ []) (hperm : entries.Perm (freqTable data)) :
    ∃ root, buildTree entries = .ok root
      ∧ (leavesOf root).Perm (freqTable data)
      ∧ ((leavesOf root).map Prod.fst).Nodup
      ∧ (∀ c, c ∈ (leavesOf root).map Prod.fst ↔ c ∈ data)
      ∧ (∀ c f, (c, f) ∈ leavesOf root → f = data.count c)
      ∧ root.Freq = data.length := by
  obtain ⟨root, hroot, _⟩ := buildTree_of_freqTable entries data hperm hne
  have hl : (leavesOf root).Perm (freqTable data) :=
    (buildTree_leaves entries root hroot).trans hperm
  refine ⟨root, hroot, hl, ?_, ?_, ?_, ?_⟩
  · exact ((hl.map Prod.fst).nodup_iff).2 (freqTable_nodup data)
  · intro c
    rw [(hl.map Prod.fst).mem_iff, freqTable_keys]
  · intro c f hcf
    exact freqTable_mem_count data c f (hl.mem_iff.1 hcf)
  · rw [weightOk_Freq root (buildTree_weightOk entries root hroot),
      ((hl.map Prod.snd).sum_eq), freqTable_sum]

/-! ## Lemmas on the number of merge steps and the size of the serialised tree -/

theorem iterJoinMin_length :
    ∀ (n : Nat) (fl : FreeList), n + 1 ≤ fl.length →
      ∃ fl', iterJoinMin n fl = .ok fl' ∧ fl'.length = fl.length - n := by
  intro n
  induction n with
  | zero => intro fl _; exact ⟨fl, rfl, rfl⟩
  | succ n ih =>
    intro fl hlen
    obtain ⟨a, b, rest, rfl⟩ := two_le_length fl (by omega)
    have hj := JoinMin_cons_cons a b rest
    generalize (if a.2.Freq < b.2.Freq then TNode.node (a.2.Freq + b.2.Freq) a.2 b.2
      else TNode.node (a.2.Freq + b.2.Freq) b.2 a.2) = c at hj
    have hc : (Add c rest).length = rest.length + 1 := by rw [Add, mmInsert_length]
    simp only [List.length_cons] at hlen
    obtain ⟨fl', hfl', hl'⟩ := ih (Add c rest) (by omega)
    refine ⟨fl', ?_, ?_⟩
    · rw [iterJoinMin, hj]; exact hfl'
    · rw [hl', hc]; simp only [List.length_cons]; omega

/-- The merge loop is `size - 1` merge steps. -/
theorem mergeLoop_eq_iterJoinMin :
    ∀ (fuel : Nat) (fl : FreeList), fl ≠ [] → fl.length ≤ fuel + 1 →
      mergeLoop fuel fl = iterJoinMin (fl.length - 1) fl := by
  intro fuel
  induction fuel with
  | zero =>
    intro fl hne hlen
    rcases fl with _ | ⟨e, _ | ⟨e2, rest⟩⟩
    · exact absurd rfl hne
    · simp [mergeLoop, iterJoinMin]
    · simp at hlen
  | succ fuel ih =>
    intro fl hne hlen
    rcases fl with _ | ⟨e, _ | ⟨e2, rest⟩⟩
    · exact absurd rfl hne
    · simp [mergeLoop, iterJoinMin]
    · have hgt : (e :: e2 :: rest).length > 1 := by simp
      have hl : (e :: e2 :: rest).length - 1 = rest.length + 1 := by simp
      rw [mergeLoop, if_pos hgt, hl, iterJoinMin, JoinMin_cons_cons]
      simp only
      have hlen' : (Add (if e.2.Freq < e2.2.Freq then TNode.node (e.2.Freq + e2.2.Freq) e.2 e2.2
          else TNode.node (e.2.Freq + e2.2.Freq) e2.2 e.2) rest).length = rest.length + 1 := by
        rw [Add, mmInsert_length]
      rw [ih _ (by intro h; rw [h] at hlen'; simp at hlen')
        (by rw [hlen']; simp only [List.length_cons] at hlen; omega), hlen']
      simp

theorem symbols_length_pos (T : TNode) : 0 < (symbols T).length := by
  induction T with
  | leaf v f => simp [symbols]
  | node f l r ihl ihr => simp [symbols]; omega

/-- The serialised tree has 9 bits per leaf and 1 bit per node with children. -/
theorem SerializeTree_length (T : TNode) :
    (SerializeTree T).length = 10 * (symbols T).length - 1 := by
  induction T with
  | leaf v f => simp [SerializeTree, symbols, ToBits_length]
  | node f l r ihl ihr =>
    have hl := symbols_length_pos l
    have hr := symbols_length_pos r
    simp only [SerializeTree, symbols, List.length_cons, List.length_append, ihl, ihr]
    omega

theorem codesOf_map_fst (T : TNode) : (codesOf T).map Prod.fst = symbols T := by
  induction T with
  | leaf v f => rfl
  | node f l r ihl ihr =>
    simp only [codesOf, symbols, List.map_append, List.map_map, ← ihl, ← ihr]
    rfl

/-- With pairwise distinct leaf values, a value has one path. -/
theorem codesOf_unique (T : TNode) (hnd : (symbols T).Nodup) (c : Char8) (p q : TBits)
    (hp : (c, p) ∈ codesOf T) (hq : (c, q) ∈ codesOf T) : p = q := by
  rw [← codesOf_map_fst] at hnd
  have := List.inj_on_of_nodup_map hnd hp hq rfl
  exact (Prod.mk.injEq _ _ _ _ ▸ this).2

/-- A walk along a proper initial segment of the path of a leaf ends inside the tree: the
loop ends without emitting anything more. -/
theorem walk_partial (root : TNode) (T : TNode) :
    ∀ (f : Nat) (l r : TNode), T = .node f l r →
    ∀ (v : Char8) (p q : TBits) (result : List Char8), (v, q) ∈ codesOf T →
      p <+: q → p ≠ q → walk root T p result = .ok result := by
  induction T with
  | leaf v f => intro f' l r h; cases h
  | node f l r ihl ihr =>
    intro f' l' r' _ v p q result hq hpq hne
    cases p with
    | nil => simp [walk]
    | cons b p' =>
      simp only [codesOf, List.mem_append, List.mem_map, Prod.mk.injEq] at hq
      obtain ⟨t, ht⟩ := hpq
      rcases hq with ⟨e, he, h1, h2⟩ | ⟨e, he, h1, h2⟩
      · subst h1
        rw [← h2] at ht hne
        simp only [List.cons_append, List.cons.injEq] at ht
        obtain ⟨hb, ht⟩ := ht
        subst hb
        have hne' : p' ≠ e.2 := fun h => hne (by rw [h])
        cases l with
        | leaf w g =>
          simp only [codesOf, List.mem_singleton] at he
          rw [he] at ht hne'
          simp at ht
          exact absurd ht.1 hne'
        | node g ll lr =>
          have := ihl g ll lr rfl e.1 p' e.2 result he ⟨t, ht⟩ hne'
          simpa [walk] using this
      · subst h1
        rw [← h2] at ht hne
        simp only [List.cons_append, List.cons.injEq] at ht
        obtain ⟨hb, ht⟩ := ht
        subst hb
        have hne' : p' ≠ e.2 := fun h => hne (by rw [h])
        cases r with
        | leaf w g =>
          simp only [codesOf, List.mem_singleton] at he
          rw [he] at ht hne'
          simp at ht
          exact absurd ht.1 hne'
        | node g rl rr =>
          have := ihr g rl rr rfl e.1 p' e.2 result he ⟨t, ht⟩ hne'
          simpa [walk] using this

/-- The decoding loop on codes followed by a proper initial segment of a code. -/
theorem walk_encode_partial (f : Nat) (l r : TNode) (code : Char8 → TBits) :
    ∀ (data result : List Char8) (v : Char8) (p q : TBits),
      (∀ c ∈ data, (c, code c) ∈ codesOf (.node f l r)) →
      (v, q) ∈ codesOf (.node f l r) → p <+: q → p ≠ q →
      walk (.node f l r) (.node f l r) ((data.map code).flatten ++ p) result
        = .ok (result ++ data) := by
  intro data
  induction data with
  | nil =>
    intro result v p q _ hq hpq hne
    simpa using walk_partial (.node f l r) (.node f l r) f l r rfl v p q result hq hpq hne
  | cons c data ih =>
    intro result v p q h hq hpq hne
    rw [List.map_cons, List.flatten_cons, List.append_assoc,
      walk_code (.node f l r) (.node f l r) f l r rfl c (code c) _ result
        (h c (List.mem_cons_self _ _)),
      ih (result ++ [c]) v p q (fun d hd => h d (List.mem_cons_of_mem _ hd)) hq hpq hne]
    simp

/-! ## Lemmas on unpacking with any control byte -/

theorem popBackN_eq (n : Nat) :
    ∀ bits : TBits, popBackN n bits
      = if n ≤ bits.length then .ok (bits.take (bits.length - n)) else .error .popBackEmpty := by
  induction n with
  | zero => intro bits; simp [popBackN]
  | succ n ih =>
    intro bits
    rcases List.eq_nil_or_concat bits with rfl | ⟨init, last, hb⟩
    · simp [popBackN]
    · rw [List.concat_eq_append] at hb
      subst hb
      have hne : init ++ [last] ≠ [] := by simp
      rw [popBackN, if_neg hne, List.dropLast_concat, ih]
      have h1 : (init ++ [last]).length = init.length + 1 := by simp
      rw [h1]
      by_cases hle : n ≤ init.length
      · have h2 : init.length + 1 - (n + 1) = init.length - n := by omega
        rw [if_pos hle, if_pos (by omega), h2,
          List.take_append_of_le_length (by omega)]
      · rw [if_neg hle, if_neg (by omega)]

theorem unpack_length (bytes : List Char8) :
    ((bytes.map ToBits).flatten).length = 8 * bytes.length := by
  induction bytes with
  | nil => rfl
  | cons c rest ih =>
    simp only [List.map_cons, List.flatten_cons, List.length_append, ToBits_length, ih,
      List.length_cons]
    omega

/-- `StringToBits` on a non-empty string: it fails exactly when the control byte exceeds the
number of bits unpacked from the bytes before it. -/
theorem StringToBits_concat (init : List Char8) (last : Char8) :
    StringToBits (init ++ [last])
      = if last.val ≤ 8 * init.length
        then .ok (((init.map ToBits).flatten).take (8 * init.length - last.val))
        else .error .popBackEmpty := by
  unfold StringToBits
  simp only [List.getLast?_concat, List.dropLast_concat]
  rw [popBackN_eq, unpack_length]

/-! ## Lemmas on the order of the node list and a dominant byte -/

theorem mmInsert_sorted (k : Nat) (n : TNode) (fl : FreeList)
    (h : fl.Pairwise (fun a b => a.1 ≤ b.1)) :
    (mmInsert k n fl).Pairwise (fun a b => a.1 ≤ b.1) := by
  induction fl with
  | nil => simp [mmInsert]
  | cons e rest ih =>
    rw [List.pairwise_cons] at h
    unfold mmInsert
    split
    · rename_i hlt
      rw [List.pairwise_cons]
      refine ⟨?_, List.pairwise_cons.2 h⟩
      intro a ha
      rcases List.mem_cons.1 ha with ha | ha
      · subst ha; exact Nat.le_of_lt hlt
      · exact Nat.le_trans (Nat.le_of_lt hlt) (h.1 a ha)
    · rename_i hge
      rw [List.pairwise_cons]
      refine ⟨?_, ih h.2⟩
      intro a ha
      rw [(mmInsert_perm k n rest).mem_iff, List.mem_cons] at ha
      rcases ha with ha | ha
      · subst ha; exact Nat.le_of_not_lt hge
      · exact h.1 a ha

theorem InitList_fold_sorted (entries : List (Char8 × Nat)) :
    ∀ fl : FreeList, fl.Pairwise (fun a b => a.1 ≤ b.1) →
      (entries.foldl (fun fl it => Add (.leaf it.1 it.2) fl) fl).Pairwise
        (fun a b => a.1 ≤ b.1) := by
  induction entries with
  | nil => intro fl h; exact h
  | cons it rest ih =>
    intro fl h
    exact ih _ (mmInsert_sorted _ _ fl h)

/-- The node list `InitList` builds is in ascending order of weight. -/
theorem InitList_sorted (entries : List (Char8 × Nat)) :
    (InitList entries).Pairwise (fun a b => a.1 ≤ b.1) :=
  InitList_fold_sorted entries [] List.Pairwise.nil

theorem keySum_perm {fl fl' : FreeList} (h : fl.Perm fl') : keySum fl = keySum fl' :=
  (h.map Prod.fst).sum_eq

theorem keySum_Add (node : TNode) (fl : FreeList) :
    keySum (Add node fl) = node.Freq + keySum fl := by
  rw [Add, keySum_perm (mmInsert_perm _ _ _)]
  simp [keySum]

theorem keySum_InitList (entries : List (Char8 × Nat)) :
    keySum (InitList entries) = (entries.map Prod.snd).sum := by
  rw [keySum_perm (InitList_perm entries)]
  simp [keySum, List.map_map, Function.comp_def]

theorem key_le_keySum (fl : FreeList) (e : Nat × TNode) (h : e ∈ fl) : e.1 ≤ keySum fl := by
  induction fl with
  | nil => cases h
  | cons a rest ih =>
    simp only [keySum, List.map_cons, List.sum_cons] at ih ⊢
    rcases List.mem_cons.1 h with h | h
    · subst h; omega
    · have := ih h; omega

/-- In a list in ascending order, an entry heavier than all the others together is last. -/
theorem dominant_last (fl : FreeList) (e : Nat × TNode)
    (hs : fl.Pairwise (fun a b => a.1 ≤ b.1)) (he : e ∈ fl) (hdom : keySum fl < 2 * e.1) :
    ∃ init, fl = init ++ [e] := by
  rcases List.eq_nil_or_concat fl with rfl | ⟨init, last, hb⟩
  · cases he
  · rw [List.concat_eq_append] at hb
    subst hb
    rcases List.mem_append.1 he with h | h
    · exfalso
      have h1 : e.1 ≤ last.1 := (List.pairwise_append.1 hs).2.2 e h last (by simp)
      have h2 := key_le_keySum init e h
      have h3 : keySum (init ++ [last]) = keySum init + last.1 := by simp [keySum]
      omega
    · rw [List.mem_singleton] at h
      exact ⟨init, by rw [h]⟩

theorem mmInsert_before_last (k : Nat) (n : TNode) (last : Nat × TNode) (hk : k < last.1) :
    ∀ fl : FreeList, mmInsert k n (fl ++ [last]) = mmInsert k n fl ++ [last] := by
  intro fl
  induction fl with
  | nil => simp [mmInsert, hk]
  | cons e rest ih =>
    have h1 : mmInsert k n (e :: (rest ++ [last]))
        = if k < e.1 then (k, n) :: e :: (rest ++ [last])
          else e :: mmInsert k n (rest ++ [last]) := rfl
    have h2 : mmInsert k n (e :: rest)
        = if k < e.1 then (k, n) :: e :: rest else e :: mmInsert k n rest := rfl
    rw [List.cons_append, h1, h2, ih]
    split <;> rfl

theorem JoinMin_dominantInv (m : Char8) (cm total : Nat) (hdom : total < 2 * cm)
    (fl fl' : FreeList) (h1 : 1 < fl.length) (hP : dominantInv m cm total fl)
    (h : JoinMin fl = .ok fl') : dominantInv m cm total fl' := by
  obtain ⟨hkey, hsum, hshape⟩ := hP
  rcases hshape with ⟨init, rfl⟩ | ⟨T, rfl⟩
  · rcases init with _ | ⟨a, _ | ⟨b, rest⟩⟩
    · simp at h1
    · -- the last merge: the other node and the leaf of `m`
      simp only [List.cons_append, List.nil_append] at h hkey hsum
      rw [JoinMin_cons_cons] at h
      injection h with h
      have ha : a.1 = a.2.Freq := hkey a (by simp)
      have hs : a.1 + cm = total := by simpa [keySum] using hsum
      have hlt : a.2.Freq < (TNode.leaf m cm).Freq := by
        show a.2.Freq < cm
        omega
      simp only [hlt, if_true] at h
      have hF : a.2.Freq + (TNode.leaf m cm).Freq = total := by
        show a.2.Freq + cm = total
        omega
      rw [hF] at h
      have hfl : fl' = [(total, TNode.node total a.2 (.leaf m cm))] := by
        rw [← h]; rfl
      subst hfl
      refine ⟨?_, by simp [keySum], Or.inr ⟨a.2, rfl⟩⟩
      intro e he
      rw [List.mem_singleton] at he
      subst he
      rfl
    · -- a merge of two other nodes: the new node goes before the leaf of `m`
      simp only [List.cons_append] at h hkey hsum
      rw [JoinMin_cons_cons] at h
      injection h with h
      have ha : a.1 = a.2.Freq := hkey a (by simp)
      have hb : b.1 = b.2.Freq := hkey b (by simp)
      have hs : a.1 + (b.1 + (keySum rest + cm)) = total := by
        simpa [keySum] using hsum
      generalize hc : (if a.2.Freq < b.2.Freq then TNode.node (a.2.Freq + b.2.Freq) a.2 b.2
        else TNode.node (a.2.Freq + b.2.Freq) b.2 a.2) = c at h
      have hcF : c.Freq = a.2.Freq + b.2.Freq := by
        rw [← hc]; split <;> rfl
      have hins : Add c (rest ++ [(cm, TNode.leaf m cm)])
          = mmInsert c.Freq c rest ++ [(cm, TNode.leaf m cm)] :=
        mmInsert_before_last c.Freq c (cm, TNode.leaf m cm) (by show c.Freq < cm; omega) rest
      refine ⟨?_, ?_, Or.inl ⟨mmInsert c.Freq c rest, by rw [← h, hins]⟩⟩
      · intro e he
        rw [← h, Add, (mmInsert_perm _ _ _).mem_iff, List.mem_cons] at he
        rcases he with he | he
        · rw [he]
        · exact hkey e (by simp [he])
      · rw [← h, keySum_Add, hcF]
        have : keySum (rest ++ [(cm, TNode.leaf m cm)]) = keySum rest + cm := by
          simp [keySum]
        omega
  · simp at h1

/-- The tree built when the byte `m` occurs more often than all the others together: the
root's Right child is the leaf of `m`. -/
theorem buildTree_dominant (entries : List (Char8 × Nat)) (data : List Char8) (m : Char8)
    (hperm : entries.Perm (freqTable data))
    (hother : ∃ d ∈ data, d ≠ m) (hdom : data.length < 2 * data.count m) :
    ∃ T, buildTree entries
        = .ok (.node data.length T (.leaf m (data.count m))) ∧ m ∉ symbols T := by
  obtain ⟨d, hd, hdm⟩ := hother
  have hne : data ≠ [] := List.ne_nil_of_mem hd
  have hm : m ∈ data := List.count_pos_iff.1 (by omega)
  have hlt : data.count m < data.length := by
    have h1 := List.count_le_length m data
    have h2 : data.count m ≠ data.length := by
      intro h
      exact hdm ((List.count_eq_length.1 h) d hd).symm
    omega
  -- the entry of `m`
  have hentry : (m, data.count m) ∈ entries := by
    have h1 := (freqTable_keys data m).2 hm
    obtain ⟨e, he, hem⟩ := List.mem_map.1 h1
    have h2 := freqTable_mem_count data e.1 e.2 he
    rw [hem] at h2
    have he' : e = (m, data.count m) := Prod.ext hem h2
    rw [← he']
    exact hperm.mem_iff.2 he
  have hsumI : keySum (InitList entries) = data.length := by
    rw [keySum_InitList, (hperm.map Prod.snd).sum_eq, freqTable_sum]
  have hmem : (data.count m, TNode.leaf m (data.count m)) ∈ InitList entries := by
    rw [(InitList_perm entries).mem_iff]
    exact List.mem_map.2 ⟨(m, data.count m), hentry, rfl⟩
  obtain ⟨init, hinit⟩ := dominant_last (InitList entries) _ (InitList_sorted entries) hmem
    (by rw [hsumI]; exact hdom)
  have hP0 : dominantInv m (data.count m) data.length (InitList entries) := by
    refine ⟨?_, hsumI, Or.inl ⟨init, hinit⟩⟩
    intro e he
    rw [(InitList_perm entries).mem_iff] at he
    obtain ⟨it, _, rfl⟩ := List.mem_map.1 he
    rfl
  have hne' : InitList entries ≠ [] := List.ne_nil_of_mem hmem
  obtain ⟨e, he⟩ := mergeLoop_ok (InitList entries).length (InitList entries) hne' (by omega)
  have hP := mergeLoop_invariant (dominantInv m (data.count m) data.length)
    (JoinMin_dominantInv m (data.count m) data.length hdom)
    (InitList entries).length (InitList entries) [e] hP0 he
  obtain ⟨_, hsum, hshape⟩ := hP
  rcases hshape with ⟨init', hi⟩ | ⟨T, hT⟩
  · exfalso
    have hlen := congrArg List.length hi
    simp only [List.length_singleton, List.length_append] at hlen
    have hnil : init' = [] := List.length_eq_zero.1 (by omega)
    rw [hnil, List.nil_append] at hi
    rw [hi] at hsum
    simp [keySum] at hsum
    omega
  · have hroot : buildTree entries
        = .ok (.node data.length T (.leaf m (data.count m))) := by
      simp [buildTree, he, hT, rootOf]
    refine ⟨T, hroot, ?_⟩
    obtain ⟨root, hroot', _, hnd, _⟩ := buildTree_leaves_count entries data hne hperm
    rw [hroot] at hroot'
    injection hroot' with hroot'
    rw [← hroot', ← symbols_eq_leavesOf] at hnd
    simp only [symbols] at hnd
    intro hin
    exact (List.nodup_append.1 hnd).2.2 hin (List.mem_singleton_self m)

/-- A property of the node list that every merge step keeps holds after `n` merge steps. -/
theorem iterJoinMin_invariant (P : FreeList → Prop)
    (hstep : ∀ fl fl', 1 < fl.length → P fl → JoinMin fl = .ok fl' → P fl') :
    ∀ (n : Nat) (fl out : FreeList), n + 1 ≤ fl.length → P fl →
      iterJoinMin n fl = .ok out → P out := by
  intro n
  induction n with
  | zero =>
    intro fl out _ hP h
    simp only [iterJoinMin, Except.ok.injEq] at h
    rw [← h]; exact hP
  | succ n ih =>
    intro fl out hlen hP h
    unfold iterJoinMin at h
    split at h
    · rename_i fl1 hj
      have h1 : 1 < fl.length := by omega
      have hl := JoinMin_length fl fl1 hj h1
      exact ih fl1 out (by omega) (hstep fl fl1 h1 hP hj) h
    · cases h

/-- Before the last merge step the node list holds one other node and the leaf of a byte that
occurs more often than all the others together. -/
theorem dominant_before_last_merge (entries : List (Char8 × Nat)) (data : List Char8)
    (m : Char8) (hperm : entries.Perm (freqTable data))
    (hother : ∃ d ∈ data, d ≠ m) (hdom : data.length < 2 * data.count m) :
    ∃ a, iterJoinMin (data.dedup.length - 2) (InitList entries)
      = .ok [a, (data.count m, .leaf m (data.count m))] := by
  obtain ⟨d, hd, hdm⟩ := hother
  have hm : m ∈ data := List.count_pos_iff.1 (by omega)
  have hk : (InitList entries).length = data.dedup.length := by
    rw [InitList_length, hperm.length_eq, freqTable_length]
  have hk2 : 2 ≤ data.dedup.length := by
    have hsub : [d, m].Subperm data.dedup := by
      apply List.subperm_of_subset (by simp [hdm])
      intro a ha
      simp only [List.mem_cons, List.mem_singleton, List.not_mem_nil, or_false] at ha
      rcases ha with rfl | rfl
      · exact List.mem_dedup.2 hd
      · exact List.mem_dedup.2 hm
    simpa using hsub.length_le
  have hentry : (m, data.count m) ∈ entries := by
    have h1 := (freqTable_keys data m).2 hm
    obtain ⟨e, he, hem⟩ := List.mem_map.1 h1
    have h2 := freqTable_mem_count data e.1 e.2 he
    rw [hem] at h2
    have he' : e = (m, data.count m) := Prod.ext hem h2
    rw [← he']
    exact hperm.mem_iff.2 he
  have hsumI : keySum (InitList entries) = data.length := by
    rw [keySum_InitList, (hperm.map Prod.snd).sum_eq, freqTable_sum]
  have hmem : (data.count m, TNode.leaf m (data.count m)) ∈ InitList entries := by
    rw [(InitList_perm entries).mem_iff]
    exact List.mem_map.2 ⟨(m, data.count m), hentry, rfl⟩
  obtain ⟨init, hinit⟩ := dominant_last (InitList entries) _ (InitList_sorted entries) hmem
    (by rw [hsumI]; exact hdom)
  have hP0 : dominantInv m (data.count m) data.length (InitList entries) := by
    refine ⟨?_, hsumI, Or.inl ⟨init, hinit⟩⟩
    intro e he
    rw [(InitList_perm entries).mem_iff] at he
    obtain ⟨it, _, rfl⟩ := List.mem_map.1 he
    rfl
  obtain ⟨fl2, hfl2, hlen2⟩ := iterJoinMin_length (data.dedup.length - 2) (InitList entries)
    (by omega)
  have hP := iterJoinMin_invariant (dominantInv m (data.count m) data.length)
    (JoinMin_dominantInv m (data.count m) data.length hdom)
    (data.dedup.length - 2) (InitList entries) fl2 (by omega) hP0 hfl2
  obtain ⟨_, _, hshape⟩ := hP
  have hl2 : fl2.length = 2 := by omega
  rcases hshape with ⟨init', hi⟩ | ⟨T, hT⟩
  · rw [hi] at hl2
    simp only [List.length_append, List.length_singleton] at hl2
    obtain ⟨a, ha⟩ := List.length_eq_one.1 (show init'.length = 1 by omega)
    exact ⟨a, by rw [hfl2, hi, ha]; rfl⟩
  · rw [hT] at hl2
    simp at hl2

/-- C11. Leaves of the built tree: for a non-empty input `x` and any enumeration of its
frequency table, the tree is built; no byte value is at two leaves; the bytes at the leaves
are the bytes of `x`; a leaf holding `c` weighs the number of occurrences of `c` in `x`; and
the root weighs `len(x)`. -/
theorem C11_leaves_of_built_tree (x : List Char8) (entries : List (Char8 × Nat))
    (hne : x ≠ []) (hperm : entries.Perm (freqTable x)) :
    ∃ root, buildTree entries = .ok root
      ∧ ((leavesOf root).map Prod.fst).Nodup
      ∧ (∀ c, c ∈ (leavesOf root).map Prod.fst ↔ c ∈ x)
      ∧ (∀ c f, (c, f) ∈ leavesOf root → f = x.count c)
      ∧ root.Freq = x.length := by
  obtain ⟨root, h1, _, h3, h4, h5, h6⟩ := buildTree_leaves_count entries x hne hperm
  exact ⟨root, h1, h3, h4, h5, h6⟩

/-- C11 at the input `abracadabra` with its table enumerated in first-occurrence order. -/
theorem C11_leaves_of_built_tree_witness :
    ∃ root, buildTree (freqTable [97, 98, 114, 97, 99, 97, 100, 97, 98, 114, 97]) = .ok root
      ∧ ((leavesOf root).map Prod.fst).Nodup
      ∧ (∀ c, c ∈ (leavesOf root).map Prod.fst
          ↔ c ∈ [(97 : Char8), 98, 114, 97, 99, 97, 100, 97, 98, 114, 97])
      ∧ (∀ c f, (c, f) ∈ leavesOf root
          → f = [(97 : Char8), 98, 114, 97, 99, 97, 100, 97, 98, 114, 97].count c)
      ∧ root.Freq = [(97 : Char8), 98, 114, 97, 99, 97, 100, 97, 98, 114, 97].length :=
  C11_leaves_of_built_tree [97, 98, 114, 97, 99, 97, 100, 97, 98, 114, 97] _ (by decide)
    (List.Perm.refl _)

/-- C12. Termination of tree building: for an input with `k >= 1` distinct byte values the
node list starts with `k` nodes; before each of the first `k - 1` merge steps it has more
than one node (`k - i` after `i` steps, one node less per step); after `k - 1` steps it has
exactly one node, and that is where the loop stops: the node is the root. -/
theorem C12_merge_steps (x : List Char8) (entries : List (Char8 × Nat))
    (hne : x ≠ []) (hperm : entries.Perm (freqTable x)) :
    (InitList entries).length = x.dedup.length
    ∧ 1 ≤ x.dedup.length
    ∧ (∀ i, i < x.dedup.length - 1 →
        ∃ fl, iterJoinMin i (InitList entries) = .ok fl
          ∧ fl.length = x.dedup.length - i ∧ 1 < fl.length)
    ∧ ∃ e, iterJoinMin (x.dedup.length - 1) (InitList entries) = .ok [e]
        ∧ mergeLoop (InitList entries).length (InitList entries) = .ok [e]
        ∧ buildTree entries = .ok e.2 := by
  have hk : (InitList entries).length = x.dedup.length := by
    rw [InitList_length, hperm.length_eq, freqTable_length]
  have hpos : 1 ≤ x.dedup.length := by
    rw [← freqTable_length]
    exact Nat.pos_of_ne_zero (fun h => freqTable_ne_nil x hne (List.length_eq_zero.1 h))
  have hne' : InitList entries ≠ [] := by
    intro h; rw [h] at hk; simp at hk; omega
  refine ⟨hk, hpos, ?_, ?_⟩
  · intro i hi
    obtain ⟨fl, hfl, hlen⟩ := iterJoinMin_length i (InitList entries) (by omega)
    exact ⟨fl, hfl, by omega, by omega⟩
  · obtain ⟨e, he⟩ := mergeLoop_ok (InitList entries).length (InitList entries) hne' (by omega)
    have hiter := mergeLoop_eq_iterJoinMin (InitList entries).length (InitList entries) hne'
      (by omega)
    rw [he, hk] at hiter
    exact ⟨e, hiter.symm, he, by simp [buildTree, he, rootOf]⟩

/-- C12 at the input `abracadabra` (5 distinct bytes, 4 merge steps). -/
theorem C12_merge_steps_witness :
    (InitList (freqTable [97, 98, 114, 97, 99, 97, 100, 97, 98, 114, 97])).length
      = [(97 : Char8), 98, 114, 97, 99, 97, 100, 97, 98, 114, 97].dedup.length
    ∧ 1 ≤ [(97 : Char8), 98, 114, 97, 99, 97, 100, 97, 98, 114, 97].dedup.length
    ∧ (∀ i, i < [(97 : Char8), 98, 114, 97, 99, 97, 100, 97, 98, 114, 97].dedup.length - 1 →
        ∃ fl, iterJoinMin i (InitList (freqTable [97, 98, 114, 97, 99, 97, 100, 97, 98, 114, 97]))
            = .ok fl
          ∧ fl.length = [(97 : Char8), 98, 114, 97, 99, 97, 100, 97, 98, 114, 97].dedup.length - i
          ∧ 1 < fl.length)
    ∧ ∃ e, iterJoinMin ([(97 : Char8), 98, 114, 97, 99, 97, 100, 97, 98, 114, 97].dedup.length - 1)
          (InitList (freqTable [97, 98, 114, 97, 99, 97, 100, 97, 98, 114, 97])) = .ok [e]
        ∧ mergeLoop (InitList (freqTable [97, 98, 114, 97, 99, 97, 100, 97, 98, 114, 97])).length
            (InitList (freqTable [97, 98, 114, 97, 99, 97, 100, 97, 98, 114, 97])) = .ok [e]
        ∧ buildTree (freqTable [97, 98, 114, 97, 99, 97, 100, 97, 98, 114, 97]) = .ok e.2 :=
  C12_merge_steps [97, 98, 114, 97, 99, 97, 100, 97, 98, 114, 97] _ (by decide)
    (List.Perm.refl _)

/-- C13. Encoder and decoder agree on any tree: for a tree whose root has children and whose
leaf values are pairwise distinct, `GetTable` gives every leaf its path from the root with
Left as bit 1 and Right as bit 0, and the decoding loop of `Decompress`, run on the
concatenation of the codes of any sequence of leaf values, emits that sequence. -/
theorem C13_polarity_agreement (f : Nat) (l r : TNode)
    (hnd : (symbols (.node f l r)).Nodup) :
    (∀ c q, (c, q) ∈ codesOf (.node f l r) →
        tableFind c (GetTable (.node f l r) [] []) = some q)
    ∧ ∀ data : List Char8, (∀ c ∈ data, c ∈ symbols (.node f l r)) →
        walk (.node f l r) (.node f l r)
          ((data.map (tableGet (GetTable (.node f l r) [] []))).flatten) [] = .ok data := by
  have hfind : ∀ c q, (c, q) ∈ codesOf (.node f l r) →
      tableFind c (GetTable (.node f l r) [] []) = some q := by
    intro c q hq
    have hc : c ∈ symbols (.node f l r) := (mem_symbols_iff _ c).2 ⟨q, hq⟩
    obtain ⟨q', hq', hfind⟩ := (GetTable_find (.node f l r) [] [] c).1 hc
    rw [hfind, codesOf_unique _ hnd c q q' hq hq']
    rfl
  refine ⟨hfind, ?_⟩
  intro data hdata
  have hcode : ∀ c ∈ data,
      (c, tableGet (GetTable (.node f l r) [] []) c) ∈ codesOf (.node f l r) := by
    intro c hc
    obtain ⟨q, hq⟩ := (mem_symbols_iff _ c).1 (hdata c hc)
    rw [tableGet, hfind c q hq]
    exact hq
  simpa using walk_encode f l r (tableGet (GetTable (.node f l r) [] [])) data [] hcode

/-- C13 on the tree with leaves `a`, `c`, `b` and the sequence `b a c a`. -/
theorem C13_polarity_agreement_witness :
    (∀ c q, (c, q) ∈ codesOf (.node 0 (.leaf 97 0) (.node 0 (.leaf 99 0) (.leaf 98 0))) →
        tableFind c (GetTable (.node 0 (.leaf 97 0) (.node 0 (.leaf 99 0) (.leaf 98 0))) [] [])
          = some q)
    ∧ ∀ data : List Char8,
        (∀ c ∈ data, c ∈ symbols (.node 0 (.leaf 97 0) (.node 0 (.leaf 99 0) (.leaf 98 0)))) →
        walk (.node 0 (.leaf 97 0) (.node 0 (.leaf 99 0) (.leaf 98 0)))
          (.node 0 (.leaf 97 0) (.node 0 (.leaf 99 0) (.leaf 98 0)))
          ((data.map (tableGet
            (GetTable (.node 0 (.leaf 97 0) (.node 0 (.leaf 99 0) (.leaf 98 0))) [] []))).flatten)
          [] = .ok data :=
  C13_polarity_agreement 0 (.leaf 97 0) (.node 0 (.leaf 99 0) (.leaf 98 0)) (by decide)

/-- C14. Byte to 8 bits and back: for every byte pattern `c` in 0..255, `ToBits c` (the sign
of `c << i` truncated to a signed 8-bit `char`, for `i = 0..7`) has exactly 8 bits, its
`i`-th bit is bit `7 - i` of `c`, and `FromBits (ToBits c) 0 = c`. -/
theorem C14_byte_bits (c : Char8) :
    (ToBits c).length = 8
    ∧ (∀ i, i < 8 → (ToBits c).getD i false = c.val.testBit (7 - i))
    ∧ FromBits (ToBits c) 0 = c := by
  refine ⟨ToBits_length c, ?_, FromBits_ToBits_zero c⟩
  intro i hi
  rw [ToBits_eq_testBit]
  simp [List.getD_eq_getElem?_getD, List.getElem?_map, List.getElem?_range hi]

/-- A tree has one leaf more than nodes with children. -/
theorem internalCount_succ (T : TNode) : internalCount T + 1 = (symbols T).length := by
  induction T with
  | leaf v f => rfl
  | node f l r ihl ihr =>
    simp only [internalCount, symbols, List.length_append]
    omega

/-- The serialised tree: 9 bits per leaf and 1 bit per node with children. -/
theorem SerializeTree_length_split (T : TNode) :
    (SerializeTree T).length = 9 * (symbols T).length + internalCount T := by
  induction T with
  | leaf v f => simp [SerializeTree, symbols, internalCount, ToBits_length]
  | node f l r ihl ihr =>
    simp only [SerializeTree, symbols, internalCount, List.length_cons, List.length_append,
      ihl, ihr]
    omega

/-- C15 as stated fails: on the three bytes `ff ff 09` the control byte is 9 > 7, and
`StringToBits` completes, with 16 - 9 = 7 bits. -/
theorem C15_control_byte_counterexample :
    7 < (9 : Char8).val
    ∧ StringToBits [255, 255, 9] = .ok [true, true, true, true, true, true, true] := by
  exact ⟨by decide, rfl⟩

/-- C15, amended. `StringToBits` fails for the empty byte string, and for a byte string with
last (control) byte `last` exactly when `last` exceeds the number of bits unpacked from the
bytes before it, `8 * (size - 1)`; otherwise, also with a control byte above 7, it completes
and returns those bits without the last `last` of them. -/
theorem C15_unpack_failure (data : List Char8) :
    (data = [] → StringToBits data = .error .outOfRange)
    ∧ ∀ last, data.getLast? = some last →
        (8 * (data.length - 1) < last.val → StringToBits data = .error .popBackEmpty)
        ∧ (last.val ≤ 8 * (data.length - 1) →
            StringToBits data
              = .ok (((data.dropLast.map ToBits).flatten).take
                  (8 * (data.length - 1) - last.val))) := by
  constructor
  · intro h; subst h; rfl
  · intro last hlast
    rcases List.eq_nil_or_concat data with rfl | ⟨init, b, hb⟩
    · simp at hlast
    · rw [List.concat_eq_append] at hb
      subst hb
      simp only [List.getLast?_concat, Option.some.injEq] at hlast
      subst hlast
      have hlen : (init ++ [b]).length - 1 = init.length := by simp
      rw [hlen, StringToBits_concat, List.dropLast_concat]
      constructor
      · intro h; rw [if_neg (by omega)]
      · intro h; rw [if_pos h]

/-- C16 as stated fails: the bits are the tree with leaves `a`, `c`, `b`, the code of `a`,
and the bit 0, a proper initial segment of the code 0 1 of `c`; packed, they are the bytes
`58 56 3b 14 01`, and `Decompress` completes with the byte `a`. -/
theorem C16_truncated_walk_counterexample :
    tableFind 99 (GetTable (.node 0 (.leaf 97 0) (.node 0 (.leaf 99 0) (.leaf 98 0))) [] [])
      = some [false, true]
    ∧ BitsToString (SerializeTree (.node 0 (.leaf 97 0) (.node 0 (.leaf 99 0) (.leaf 98 0)))
        ++ [true] ++ [false]) = [88, 86, 59, 20, 1]
    ∧ Decompress [88, 86, 59, 20, 1] = .ok [97] := by
  exact ⟨rfl, by decide, rfl⟩

/-- C16, amended. When the bits after the serialised tree are codes of leaves followed by a
proper, non-empty initial segment `p` of a code, `Decompress` completes without error and
returns the bytes of the complete codes; the bits of `p` are dropped. -/
theorem C16_truncated_walk (input : List Char8) (T : TNode) (code : Char8 → TBits)
    (data : List Char8) (v : Char8) (p q : TBits)
    (hbits : StringToBits input = .ok (SerializeTree T ++ (data.map code).flatten ++ p))
    (hcode : ∀ c ∈ data, (c, code c) ∈ codesOf T)
    (hq : (v, q) ∈ codesOf T) (hpq : p <+: q) (hp : p ≠ []) (hne : p ≠ q) :
    Decompress input = .ok data := by
  cases T with
  | leaf w g =>
    exfalso
    simp only [codesOf, List.mem_singleton, Prod.mk.injEq] at hq
    rw [hq.2] at hpq
    exact hp (List.prefix_nil.1 hpq)
  | node f l r =>
    have hcons := ConstructTree_SerializeTree (.node f l r) []
      ((data.map code).flatten ++ p)
      ((SerializeTree (.node f l r) ++ (data.map code).flatten ++ p).length + 1)
      (by simp only [List.length_append]; omega)
    simp only [List.nil_append, List.length_nil, Nat.zero_add, ← List.append_assoc] at hcons
    have hz : codesOf (.node 0 (zeroFreq l) (zeroFreq r)) = codesOf (.node f l r) :=
      codesOf_zeroFreq (.node f l r)
    have hwalk := walk_encode_partial 0 (zeroFreq l) (zeroFreq r) code data [] v p q
      (by rw [hz]; exact hcode) (by rw [hz]; exact hq) hpq hne
    unfold Decompress
    rw [hbits]
    simp only
    rw [hcons]
    simp only [zeroFreq, List.append_assoc, List.drop_left]
    simpa using hwalk

set_option maxRecDepth 100000 in
/-- C16, amended, on the bytes `58 56 3b 14 01`: the tree with leaves `a`, `c`, `b`, the code
of `a`, and the first bit of the code of `c`. -/
theorem C16_truncated_walk_witness : Decompress [88, 86, 59, 20, 1] = .ok [97] :=
  C16_truncated_walk [88, 86, 59, 20, 1]
    (.node 0 (.leaf 97 0) (.node 0 (.leaf 99 0) (.leaf 98 0)))
    (fun _ => [true]) [97] 99 [false] [false, true]
    rfl (by decide) (by decide) ⟨[true], rfl⟩ (by decide) (by decide)

/-- C17. Dominant byte: when an input with at least two distinct byte values has a byte `m`
occurring more often than all the other bytes together, then for any enumeration of the
frequency table the leaf of `m` is still a leaf of the node list before the last merge step
(which merges it with the one other node), it is the Right child of the root, no other leaf
holds `m`, and the code of `m` is the single bit 0. -/
theorem C17_dominant_symbol (x : List Char8) (entries : List (Char8 × Nat)) (m : Char8)
    (hperm : entries.Perm (freqTable x))
    (hother : ∃ d ∈ x, d ≠ m) (hdom : x.length - x.count m < x.count m) :
    (∃ a, iterJoinMin (x.dedup.length - 2) (InitList entries)
        = .ok [a, (x.count m, .leaf m (x.count m))])
    ∧ ∃ T, buildTree entries = .ok (.node x.length T (.leaf m (x.count m)))
        ∧ m ∉ symbols T
        ∧ tableFind m (GetTable (.node x.length T (.leaf m (x.count m))) [] [])
            = some [false] := by
  have hle := List.count_le_length m x
  have hdom' : x.length < 2 * x.count m := by omega
  refine ⟨dominant_before_last_merge entries x m hperm hother hdom', ?_⟩
  obtain ⟨T, hT, hm⟩ := buildTree_dominant entries x m hperm hother hdom'
  refine ⟨T, hT, hm, ?_⟩
  have hflip : flipLast [true] = [false] := rfl
  simp [GetTable, hflip, tableFind_tableSet]

/-- C17 at the input `a b a c a` with the table enumerated as `c, a, b`. -/
theorem C17_dominant_symbol_witness :
    (∃ a, iterJoinMin ([(97 : Char8), 98, 97, 99, 97].dedup.length - 2)
          (InitList [(99, 1), (97, 3), (98, 1)])
        = .ok [a, ([(97 : Char8), 98, 97, 99, 97].count 97,
            .leaf 97 ([(97 : Char8), 98, 97, 99, 97].count 97))])
    ∧ ∃ T, buildTree [(99, 1), (97, 3), (98, 1)]
          = .ok (.node [(97 : Char8), 98, 97, 99, 97].length T
              (.leaf 97 ([(97 : Char8), 98, 97, 99, 97].count 97)))
        ∧ 97 ∉ symbols T
        ∧ tableFind 97 (GetTable (.node [(97 : Char8), 98, 97, 99, 97].length T
              (.leaf 97 ([(97 : Char8), 98, 97, 99, 97].count 97))) [] [])
            = some [false] :=
  C17_dominant_symbol [97, 98, 97, 99, 97] [(99, 1), (97, 3), (98, 1)] 97 (by decide)
    ⟨98, by decide, by decide⟩ (by decide)

/-- C18. Tree overhead: for an input with `k >= 1` distinct byte values and any enumeration
of its frequency table, the built tree has `k` leaves and `k - 1` nodes with children, and the
serialised tree has `10 * k - 1` bits, 9 per leaf and 1 per node with children; the bits
`Compress` packs start with these `10 * k - 1` bits, and the rest is the concatenation of the
codes (the entries of the code table) of the input bytes in input order. -/
theorem C18_tree_overhead (x : List Char8) (entries : List (Char8 × Nat))
    (hne : x ≠ []) (hperm : entries.Perm (freqTable x)) :
    ∃ root, buildTree entries = .ok root
      ∧ (symbols root).length = x.dedup.length
      ∧ internalCount root = x.dedup.length - 1
      ∧ (SerializeTree root).length = 9 * (symbols root).length + internalCount root
      ∧ (SerializeTree root).length = 10 * x.dedup.length - 1
      ∧ Compress entries x = .ok (BitsToString (compressedBits root x))
      ∧ (compressedBits root x).take (10 * x.dedup.length - 1) = SerializeTree root
      ∧ (compressedBits root x).drop (10 * x.dedup.length - 1)
          = (x.map (tableGet (GetTable root [] []))).flatten
      ∧ ∀ c ∈ x, tableFind c (GetTable root [] []) = some (tableGet (GetTable root [] []) c) := by
  obtain ⟨root, hroot, hl, _⟩ := buildTree_leaves_count entries x hne hperm
  obtain ⟨_, hroot', hsym⟩ := buildTree_of_freqTable entries x hperm hne
  rw [hroot] at hroot'
  injection hroot' with hroot'
  subst hroot'
  have hk : (symbols root).length = x.dedup.length := by
    rw [symbols_eq_leavesOf, List.length_map, hl.length_eq, freqTable_length]
  have hlen : (SerializeTree root).length = 10 * x.dedup.length - 1 := by
    rw [SerializeTree_length, hk]
  have hint := internalCount_succ root
  refine ⟨root, hroot, hk, by omega, SerializeTree_length_split root, hlen,
    by simp [Compress, hroot], ?_, ?_, ?_⟩
  · rw [← hlen, compressedBits]
    simp
  · rw [← hlen, compressedBits]
    simp
  · intro c hc
    obtain ⟨q, _, hfind⟩ := (GetTable_find root [] [] c).1 ((hsym c).2 hc)
    rw [tableGet, hfind]
    rfl

/-- C18 at the input `abracadabra` with its table enumerated in first-occurrence order. -/
theorem C18_tree_overhead_witness :
    ∃ root, buildTree (freqTable [97, 98, 114, 97, 99, 97, 100, 97, 98, 114, 97]) = .ok root
      ∧ (symbols root).length
          = [(97 : Char8), 98, 114, 97, 99, 97, 100, 97, 98, 114, 97].dedup.length
      ∧ internalCount root
          = [(97 : Char8), 98, 114, 97, 99, 97, 100, 97, 98, 114, 97].dedup.length - 1
      ∧ (SerializeTree root).length = 9 * (symbols root).length + internalCount root
      ∧ (SerializeTree root).length
          = 10 * [(97 : Char8), 98, 114, 97, 99, 97, 100, 97, 98, 114, 97].dedup.length - 1
      ∧ Compress (freqTable [97, 98, 114, 97, 99, 97, 100, 97, 98, 114, 97])
            [97, 98, 114, 97, 99, 97, 100, 97, 98, 114, 97]
          = .ok (BitsToString (compressedBits root
              [97, 98, 114, 97, 99, 97, 100, 97, 98, 114, 97]))
      ∧ (compressedBits root [97, 98, 114, 97, 99, 97, 100, 97, 98, 114, 97]).take
            (10 * [(97 : Char8), 98, 114, 97, 99, 97, 100, 97, 98, 114, 97].dedup.length - 1)
          = SerializeTree root
      ∧ (compressedBits root [97, 98, 114, 97, 99, 97, 100, 97, 98, 114, 97]).drop
            (10 * [(97 : Char8), 98, 114, 97, 99, 97, 100, 97, 98, 114, 97].dedup.length - 1)
          = ([(97 : Char8), 98, 114, 97, 99, 97, 100, 97, 98, 114, 97].map
              (tableGet (GetTable root [] []))).flatten
      ∧ ∀ c ∈ [(97 : Char8), 98, 114, 97, 99, 97, 100, 97, 98, 114, 97],
          tableFind c (GetTable root [] []) = some (tableGet (GetTable root [] []) c) :=
  C18_tree_overhead [97, 98, 114, 97, 99, 97, 100, 97, 98, 114, 97] _ (by decide)
    (List.Perm.refl _)

end Huffman
